import Mathlib

/-!
Verification of the heap-based patient priority queue in `patient_queue.py`.

The module defines two classes:
* `PatientHeapQueue` — a zero-indexed, array-backed max-heap with `enqueue`,
  `dequeue`, incremental heapify (`_heapify`) and linear heapify
  (`_fast_heapify`);
* `EditablePatientHeapQueue` — a subclass maintaining a `name → index`
  dictionary (`indices`) and supporting `remove(name)`; it overrides `_swap`
  so every structural exchange also updates the dictionary.

We embed both variants over one state type `HState`.  The Boolean flag
threaded through the structural operations selects which `_swap` override
is in effect (Python dynamic dispatch: the subclass's swap is used by all
inherited sift code).  `Patient` is external to the repository (imported
from `classes`); per the specification it is an opaque record exposing a
`name` key and a comparable `priority`, which is all the queue reads.
-/

set_option maxHeartbeats 1000000

namespace PatientQueue

/-- The element type: the queue only reads `name` and `priority`
(`Patient` itself lives outside this module). -/
structure Patient where
  name : String
  priority : Int
deriving DecidableEq

instance : Inhabited Patient := ⟨⟨"", 0⟩⟩

/-! ### The `indices` dictionary

`EditablePatientHeapQueue.indices` is a Python `dict` from patient name to
array index.  We model it as an association list: assignment overwrites the
existing entry in place (or appends a fresh one), `del` removes the entry
and fails when the key is absent. -/

/-- `d[k]` read: first binding of `k`, if any. -/
def dictLookup : List (String × Nat) → String → Option Nat
  | [], _ => none
  | (k', v) :: rest, k => if k' = k then some v else dictLookup rest k

/-- `d[k] = v`: overwrite the binding of `k` in place, or append it. -/
def dictInsert : List (String × Nat) → String → Nat → List (String × Nat)
  | [], k, v => [(k, v)]
  | (k', v') :: rest, k, v =>
    if k' = k then (k, v) :: rest else (k', v') :: dictInsert rest k v

/-- Remove the binding of `k` (first occurrence), if any. -/
def dictErase : List (String × Nat) → String → List (String × Nat)
  | [], _ => []
  | (k', v') :: rest, k => if k' = k then rest else (k', v') :: dictErase rest k

/-- `del d[k]`: fails (KeyError) when `k` is absent. -/
def dictDelete (m : List (String × Nat)) (k : String) :
    Option (List (String × Nat)) :=
  if (dictLookup m k).isSome then some (dictErase m k) else none

/-! ### Queue state -/

/-- Combined state for both queue variants: `comparisons` and `data` are the
base class's fields; `indices` is the subclass's dictionary (unused, and left
empty, when the plain variant's operations run). -/
structure HState where
  comparisons : Nat
  data : List Patient
  indices : List (String × Nat)
deriving DecidableEq

/-- Priority stored at index `i` (reads out of range never occur on the
in-bounds call paths of the source). -/
def prio (d : List Patient) (i : Nat) : Int := (d.getD i default).priority

/-- `_swap` on the backing list: `data[i], data[j] = data[j], data[i]`. -/
def listSwap (l : List Patient) (i j : Nat) : List Patient :=
  (l.set i (l.getD j default)).set j (l.getD i default)

/-- Dispatch for `self._swap(i, j)`: `b = true` selects
`EditablePatientHeapQueue._swap`, which also overwrites the two moved
names' bindings (`indices[data[i].name] = i` then `indices[data[j].name] = j`,
reading the already-swapped list); `b = false` is the base `_swap`. -/
def doSwap (b : Bool) (s : HState) (i j : Nat) : HState :=
  let d := listSwap s.data i j
  if b then
    { s with data := d,
             indices := dictInsert (dictInsert s.indices
               (d.getD i default).name i) (d.getD j default).name j }
  else { s with data := d }

/-- `_parent_index`: `(i - 1) // 2` (only used at `i ≠ 0`, where Python's
floor division agrees with `Nat` division). -/
def parentIndex (index : Nat) : Nat := (index - 1) / 2

/-- `_max_child_priority_index` restricted to the sift-down call site, where
the candidate list is exactly `[2*i+1, 2*i+2]`: scan in order, stop at the
first out-of-range index; the first valid child becomes the candidate
without a comparison, the second replaces it only on strict inequality,
counting one comparison.  Returns the chosen index and the updated
comparison counter. -/
def maxChildPriorityIndex (d : List Patient) (comps : Nat) (index : Nat) :
    Option Nat × Nat :=
  if 2 * index + 1 ≥ d.length then (none, comps)
  else if 2 * index + 2 ≥ d.length then (some (2 * index + 1), comps)
  else if prio d (2 * index + 2) > prio d (2 * index + 1) then
    (some (2 * index + 2), comps + 1)
  else (some (2 * index + 1), comps + 1)

theorem maxChild_bounds {d : List Patient} {comps index ci comps' : Nat}
    (h : maxChildPriorityIndex d comps index = (some ci, comps')) :
    index < ci ∧ ci < d.length := by
  unfold maxChildPriorityIndex at h
  split at h
  · exact absurd h (by simp)
  · split at h
    · cases h; omega
    · split at h <;> cases h <;> omega

/-- `_sift_up`: at a non-root index, compare with the parent (counting one
comparison) and swap-and-recurse on strict inequality. -/
def siftUp (b : Bool) (s : HState) (index : Nat) : HState :=
  if index = 0 then s
  else if prio s.data (parentIndex index) < prio s.data index then
    siftUp b (doSwap b { s with comparisons := s.comparisons + 1 }
      index (parentIndex index)) (parentIndex index)
  else { s with comparisons := s.comparisons + 1 }
termination_by index
decreasing_by
  simp only [parentIndex]
  omega

theorem listSwap_length (l : List Patient) (i j : Nat) :
    (listSwap l i j).length = l.length := by
  simp [listSwap]

theorem doSwap_data (b : Bool) (s : HState) (i j : Nat) :
    (doSwap b s i j).data = listSwap s.data i j := by
  unfold doSwap
  split <;> rfl

theorem doSwap_comparisons (b : Bool) (s : HState) (i j : Nat) :
    (doSwap b s i j).comparisons = s.comparisons := by
  unfold doSwap
  split <;> rfl

/-- `_sift_down`: find the larger valid child; if it strictly outranks the
current element (one more comparison), swap and recurse into the child. -/
def siftDown (b : Bool) (s : HState) (index : Nat) : HState :=
  match h : maxChildPriorityIndex s.data s.comparisons index with
  | (none, comps) => { s with comparisons := comps }
  | (some ci, comps) =>
    if prio s.data ci > prio s.data index then
      siftDown b (doSwap b { s with comparisons := comps + 1 } index ci) ci
    else { s with comparisons := comps + 1 }
termination_by s.data.length - index
decreasing_by
  have hb := maxChild_bounds h
  simp only [doSwap_data, listSwap_length]
  omega

/-- `enqueue`: the indexed variant first records
`indices[patient.name] = len(data)`; both variants then append and sift up
from the last index. -/
def enqueue (b : Bool) (s : HState) (p : Patient) : HState :=
  let s0 := if b then
    { s with indices := dictInsert s.indices p.name s.data.length } else s
  siftUp b { s0 with data := s0.data ++ [p] } s.data.length

/-- Base-class `dequeue` body (run with the dispatching flag `b`, since
`_sift_down` routes its swaps through `self._swap`): read `data[0]` (fails
on an empty queue); if more than one element remains, pop the last element
into the root slot and sift down, else just pop. -/
def dequeueBase (b : Bool) (s : HState) : Option (Patient × HState) :=
  match s.data.head? with
  | none => none
  | some first =>
    if s.data.length ≠ 1 then
      let lastp := (s.data.getLast?).getD default
      some (first, siftDown b { s with data := (s.data.dropLast).set 0 lastp } 0)
    else
      some (first, { s with data := s.data.dropLast })

/-- The `indices` bookkeeping that `EditablePatientHeapQueue.dequeue`
performs before delegating: unless the dictionary has exactly one entry,
reassign the tail element's name to slot 0 (reading `data[-1]`, which fails
on an empty list) and delete the root's name; with exactly one entry, just
delete the root's name. -/
def dequeuePre (s : HState) : Option HState :=
  if s.indices.length ≠ 1 then
    match s.data.getLast?, s.data.head? with
    | some lastp, some firstp =>
      (dictDelete (dictInsert s.indices lastp.name 0) firstp.name).map
        (fun m2 => { s with indices := m2 })
    | _, _ => none
  else
    match s.data.head? with
    | some firstp =>
      (dictDelete s.indices firstp.name).map (fun m2 => { s with indices := m2 })
    | none => none

/-- `EditablePatientHeapQueue.dequeue`: run the `indices` bookkeeping, then
the inherited dequeue (whose sift-down swaps use the subclass's `_swap`). -/
def dequeueIdx (s : HState) : Option (Patient × HState) :=
  (dequeuePre s).bind (dequeueBase true)

/-- `EditablePatientHeapQueue.remove`: look up the name (fails when absent),
delete its binding, and unless the last element is the one being removed,
move the last element into the vacated slot, record its new index, and run
sift-up then sift-down from that slot. -/
def removeIdx (s : HState) (pname : String) : Option HState :=
  match dictLookup s.indices pname with
  | none => none
  | some removedIndex =>
    match dictDelete s.indices pname with
    | none => none
    | some m =>
      match s.data.getLast? with
      | none => none
      | some lastItem =>
        if lastItem.name ≠ pname then
          let d2 := (s.data.set removedIndex lastItem).dropLast
          let m2 := dictInsert m lastItem.name removedIndex
          let s2 := siftUp true
            { comparisons := s.comparisons, data := d2, indices := m2 }
            removedIndex
          some (siftDown true s2 removedIndex)
        else some { s with indices := m, data := s.data.dropLast }

/-- `_heapify`: enqueue every input element in order (`self.enqueue`, hence
the subclass's enqueue when `b = true`). -/
def heapifySlow (b : Bool) (s : HState) (l : List Patient) : HState :=
  l.foldl (fun st p => enqueue b st p) s

/-- The loop `for index in range(n-1, -1, -1): self._sift_down(index)`. -/
def siftDownAll (b : Bool) (s : HState) : Nat → HState
  | 0 => s
  | n + 1 => siftDownAll b (siftDown b s n) n

/-- `_fast_heapify`: append all elements, then sift down every index from
the last to the root. -/
def heapifyFast (b : Bool) (s : HState) (l : List Patient) : HState :=
  let s1 := { s with data := s.data ++ l }
  siftDownAll b s1 s1.data.length

/-- `PatientHeapQueue.__init__(start_data=None, fast=False)`: a `None`
argument is replaced by `[]`; `comparisons` and `data` start at zero/empty,
then the chosen heapify runs. -/
def initBase (startData : Option (List Patient)) (fast : Bool) : HState :=
  let l := startData.getD []
  let s0 : HState := ⟨0, [], []⟩
  if fast then heapifyFast false s0 l else heapifySlow false s0 l

/-- The subclass constructor's seeding loop:
`for (i, person) in enumerate(start_data): indices[person.name] = i`. -/
def seedIndices (l : List Patient) : List (String × Nat) :=
  (l.enum.foldl (fun m ip => dictInsert m ip.2.name ip.1) [])

/-- `EditablePatientHeapQueue.__init__(start_data=None, fast=False)`:
iterates `enumerate(start_data)` *before* delegating to the base
constructor, so the default `None` raises `TypeError` (modelled as `none`);
otherwise the names are seeded at their raw input offsets and the base
constructor heapifies (with the subclass's swap and enqueue in effect). -/
def initIndexed (startData : Option (List Patient)) (fast : Bool) :
    Option HState :=
  match startData with
  | none => none
  | some l =>
    let s0 : HState := ⟨0, [], seedIndices l⟩
    some (if fast then heapifyFast true s0 l else heapifySlow true s0 l)

/-- One dequeue of the variant selected by `b`. -/
def dequeueOp (b : Bool) (s : HState) : Option (Patient × HState) :=
  if b then dequeueIdx s else dequeueBase false s

/-! ### Structural basics: lengths, counters, pointwise reads -/

theorem prio_swap_fst {l : List Patient} {i j : Nat}
    (hi : i < l.length) (hj : j < l.length) :
    prio (listSwap l i j) i = prio l j := by
  unfold prio listSwap
  by_cases hij : i = j
  · subst hij
    rw [List.getD_eq_getElem?_getD, List.getElem?_set_self (by simpa using hi)]
    rfl
  · rw [List.getD_eq_getElem?_getD, List.getElem?_set_ne (Ne.symm hij),
      List.getElem?_set_self hi]
    rfl

theorem prio_swap_snd {l : List Patient} {i j : Nat} (hj : j < l.length) :
    prio (listSwap l i j) j = prio l i := by
  unfold prio listSwap
  rw [List.getD_eq_getElem?_getD, List.getElem?_set_self (by simpa using hj)]
  rfl

theorem prio_swap_other {l : List Patient} {i j k : Nat}
    (hki : k ≠ i) (hkj : k ≠ j) :
    prio (listSwap l i j) k = prio l k := by
  unfold prio listSwap
  rw [List.getD_eq_getElem?_getD, List.getElem?_set_ne (Ne.symm hkj),
    List.getElem?_set_ne (Ne.symm hki), List.getD_eq_getElem?_getD]

theorem doSwap_indices_false (s : HState) (i j : Nat) :
    (doSwap false s i j).indices = s.indices := rfl

theorem siftUp_data_length (b : Bool) (s : HState) (index : Nat) :
    (siftUp b s index).data.length = s.data.length := by
  induction s, index using siftUp.induct b with
  | case1 s => simp [siftUp]
  | case2 s index hne hlt ih =>
    rw [siftUp, if_neg hne, if_pos hlt, ih, doSwap_data, listSwap_length]
  | case3 s index hne hlt =>
    rw [siftUp, if_neg hne, if_neg hlt]

theorem siftUp_comparisons_mono (b : Bool) (s : HState) (index : Nat) :
    s.comparisons ≤ (siftUp b s index).comparisons := by
  induction s, index using siftUp.induct b with
  | case1 s => simp [siftUp]
  | case2 s index hne hlt ih =>
    rw [siftUp, if_neg hne, if_pos hlt]
    refine le_trans ?_ ih
    rw [doSwap_comparisons]
    exact Nat.le_succ _
  | case3 s index hne hlt =>
    rw [siftUp, if_neg hne, if_neg hlt]
    exact Nat.le_succ _

theorem siftUp_indices_false (s : HState) (index : Nat) :
    (siftUp false s index).indices = s.indices := by
  induction s, index using siftUp.induct false with
  | case1 s => simp [siftUp]
  | case2 s index hne hlt ih =>
    rw [siftUp, if_neg hne, if_pos hlt, ih, doSwap_indices_false]
  | case3 s index hne hlt =>
    rw [siftUp, if_neg hne, if_neg hlt]

theorem siftDown_of_none {b : Bool} {s : HState} {index comps : Nat}
    (h : maxChildPriorityIndex s.data s.comparisons index = (none, comps)) :
    siftDown b s index = { s with comparisons := comps } := by
  rw [siftDown]
  split <;> rename_i heq
  · rw [h] at heq
    injection heq with h1 h2
    rw [h2]
  · rw [h] at heq
    injection heq with h1 h2
    exact absurd h1 (by simp)

theorem siftDown_of_some_lt {b : Bool} {s : HState} {index ci comps : Nat}
    (h : maxChildPriorityIndex s.data s.comparisons index = (some ci, comps))
    (hlt : prio s.data ci > prio s.data index) :
    siftDown b s index =
      siftDown b (doSwap b { s with comparisons := comps + 1 } index ci) ci := by
  rw [siftDown]
  split <;> rename_i heq
  · rw [h] at heq
    injection heq with h1 h2
    exact absurd h1 (by simp)
  · rw [h] at heq
    injection heq with h1 h2
    injection h1 with h1
    subst h1; subst h2
    rw [if_pos hlt]

theorem siftDown_of_some_ge {b : Bool} {s : HState} {index ci comps : Nat}
    (h : maxChildPriorityIndex s.data s.comparisons index = (some ci, comps))
    (hge : ¬ prio s.data ci > prio s.data index) :
    siftDown b s index = { s with comparisons := comps + 1 } := by
  rw [siftDown]
  split <;> rename_i heq
  · rw [h] at heq
    injection heq with h1 h2
    exact absurd h1 (by simp)
  · rw [h] at heq
    injection heq with h1 h2
    injection h1 with h1
    subst h1; subst h2
    rw [if_neg hge]

theorem maxChild_comps_mono {d : List Patient} {comps index : Nat} :
    comps ≤ (maxChildPriorityIndex d comps index).2 := by
  unfold maxChildPriorityIndex
  split
  · exact le_refl _
  · split
    · exact le_refl _
    · split <;> exact Nat.le_succ _

theorem siftDown_data_length (b : Bool) (s : HState) (index : Nat) :
    (siftDown b s index).data.length = s.data.length := by
  induction s, index using siftDown.induct b with
  | case1 s index comps h => rw [siftDown_of_none h]
  | case2 s index ci comps h hlt ih =>
    rw [siftDown_of_some_lt h hlt, ih, doSwap_data, listSwap_length]
  | case3 s index ci comps h hlt =>
    rw [siftDown_of_some_ge h hlt]

theorem siftDown_comparisons_mono (b : Bool) (s : HState) (index : Nat) :
    s.comparisons ≤ (siftDown b s index).comparisons := by
  induction s, index using siftDown.induct b with
  | case1 s index comps h =>
    rw [siftDown_of_none h]
    have := @maxChild_comps_mono s.data s.comparisons index
    rw [h] at this
    exact this
  | case2 s index ci comps h hlt ih =>
    rw [siftDown_of_some_lt h hlt]
    refine le_trans ?_ ih
    rw [doSwap_comparisons]
    have := @maxChild_comps_mono s.data s.comparisons index
    rw [h] at this
    exact le_trans this (Nat.le_succ _)
  | case3 s index ci comps h hlt =>
    rw [siftDown_of_some_ge h hlt]
    have := @maxChild_comps_mono s.data s.comparisons index
    rw [h] at this
    exact le_trans this (Nat.le_succ _)

theorem siftDown_indices_false (s : HState) (index : Nat) :
    (siftDown false s index).indices = s.indices := by
  induction s, index using siftDown.induct false with
  | case1 s index comps h => rw [siftDown_of_none h]
  | case2 s index ci comps h hlt ih =>
    rw [siftDown_of_some_lt h hlt, ih, doSwap_indices_false]
  | case3 s index ci comps h hlt =>
    rw [siftDown_of_some_ge h hlt]

theorem siftDownAll_data_length (b : Bool) (s : HState) (n : Nat) :
    (siftDownAll b s n).data.length = s.data.length := by
  induction n generalizing s with
  | zero => rfl
  | succ n ih => rw [siftDownAll, ih, siftDown_data_length]

theorem dequeueBase_some_length {b : Bool} {s s' : HState} {p : Patient}
    (h : dequeueBase b s = some (p, s')) :
    s'.data.length + 1 = s.data.length := by
  unfold dequeueBase at h
  split at h
  · exact absurd h (by simp)
  · rename_i first hh
    have hne : s.data ≠ [] := by
      intro hnil; rw [hnil] at hh; exact absurd hh (by simp)
    have hpos : 0 < s.data.length := List.length_pos.mpr hne
    split at h
    · rename_i h1
      simp only [Option.some_inj, Prod.mk.injEq] at h
      rw [← h.2, siftDown_data_length]
      simp only [List.length_set, List.length_dropLast]
      omega
    · rename_i h1
      simp only [Option.some_inj, Prod.mk.injEq] at h
      rw [← h.2]
      simp only [List.length_dropLast]
      push_neg at h1
      omega

theorem dequeuePre_some {s s1 : HState} (h : dequeuePre s = some s1) :
    s1.data = s.data ∧ s1.comparisons = s.comparisons := by
  unfold dequeuePre at h
  split at h <;> split at h <;>
    first
      | (rw [Option.map_eq_some'] at h
         obtain ⟨m2, hm2, hs1⟩ := h
         rw [← hs1]
         exact ⟨rfl, rfl⟩)
      | simp at h

theorem dequeueIdx_some_length {s s' : HState} {p : Patient}
    (h : dequeueIdx s = some (p, s')) :
    s'.data.length + 1 = s.data.length := by
  unfold dequeueIdx at h
  rw [Option.bind_eq_some] at h
  obtain ⟨s1, h1, h2⟩ := h
  have hd := (dequeuePre_some h1).1
  have hlen := dequeueBase_some_length h2
  rw [hd] at hlen
  exact hlen

theorem dequeueOp_some_length {b : Bool} {s s' : HState} {p : Patient}
    (h : dequeueOp b s = some (p, s')) :
    s'.data.length + 1 = s.data.length := by
  unfold dequeueOp at h
  split at h
  · exact dequeueIdx_some_length h
  · exact dequeueBase_some_length h

/-- `while size > 0: dequeue()` — the emitted order of a queue, used to
state the dequeue-order, equivalence and removal properties. -/
def drain (b : Bool) (s : HState) : List Patient :=
  match h : dequeueOp b s with
  | none => []
  | some (p, s') => p :: drain b s'
termination_by s.data.length
decreasing_by
  have := dequeueOp_some_length h
  omega

/-! ### The max-heap invariant and the sift correctness lemmas -/

/-- `j` is a child index of `i` in the 0-indexed binary-tree layout. -/
def isChild (i j : Nat) : Prop := j = 2 * i + 1 ∨ j = 2 * i + 2

instance (i j : Nat) : Decidable (isChild i j) := by
  unfold isChild
  infer_instance

/-- The max-heap property, as the specification states it: for every index
`i` with a child `j = 2i+1` or `j = 2i+2` inside the array, the element at
`i` has priority at least that of the child. -/
def heapInv (d : List Patient) : Prop :=
  ∀ j, j < d.length → ∀ i, i < d.length → isChild i j → prio d j ≤ prio d i

instance (d : List Patient) : Decidable (heapInv d) := by
  unfold heapInv
  infer_instance

/-- The heap property restricted to parents at index `t` or beyond (the
invariant of the linear heapify loop: subtrees rooted at processed indices
are already valid). -/
def heapFrom (d : List Patient) (t : Nat) : Prop :=
  ∀ i j, j < d.length → isChild i j → t ≤ i → prio d j ≤ prio d i

theorem isChild_lt {i j : Nat} (h : isChild i j) : i < j := by
  rcases h with h | h <;> omega

theorem isChild_parentIndex {i j : Nat} (h : isChild i j) : parentIndex j = i := by
  unfold parentIndex
  rcases h with h | h <;> omega

theorem isChild_parent {j : Nat} (h : j ≠ 0) : isChild (parentIndex j) j := by
  unfold isChild parentIndex
  omega

theorem not_isChild_zero {i : Nat} : ¬ isChild i 0 := by
  unfold isChild
  omega

theorem parentIndex_lt {j : Nat} (h : j ≠ 0) : parentIndex j < j := by
  unfold parentIndex
  omega

theorem heapFrom_zero_iff {d : List Patient} : heapFrom d 0 ↔ heapInv d := by
  constructor
  · intro h j hj i hi hc
    exact h i j hj hc (Nat.zero_le _)
  · intro h i j hj hc _
    exact h j hj i (lt_trans (isChild_lt hc) hj) hc

/-- State of the array during sift-up of the element at `k`: every
parent/child pair not ending at `k` is ordered, and the children of `k`
are already dominated by `k`'s parent. -/
def upOk (d : List Patient) (k : Nat) : Prop :=
  (∀ i j, j < d.length → isChild i j → j ≠ k → prio d j ≤ prio d i) ∧
  (∀ j, j < d.length → isChild k j → k ≠ 0 → prio d j ≤ prio d (parentIndex k))

/-- State of the array during sift-down of the element at `k`, relative to
the threshold `t` of already-processed parents: every pair with parent at
`t` or beyond and different from `k` is ordered, and (when `k`'s parent is
itself at or beyond `t`) the children of `k` are dominated by `k`'s
parent. -/
def downOk (d : List Patient) (t k : Nat) : Prop :=
  (∀ i j, j < d.length → isChild i j → t ≤ i → i ≠ k → prio d j ≤ prio d i) ∧
  (∀ j, j < d.length → isChild k j → k ≠ 0 → t ≤ parentIndex k →
    prio d j ≤ prio d (parentIndex k))

theorem upOk_swap {d : List Patient} {k : Nat} (hk : k < d.length) (hk0 : k ≠ 0)
    (h : upOk d k) (hlt : prio d (parentIndex k) < prio d k) :
    upOk (listSwap d k (parentIndex k)) (parentIndex k) := by
  set p := parentIndex k with hp
  have hpk : p < k := parentIndex_lt hk0
  have hplen : p < d.length := lt_trans hpk hk
  have hdk : prio (listSwap d k p) k = prio d p := prio_swap_fst hk hplen
  have hdp : prio (listSwap d k p) p = prio d k := prio_swap_snd hplen
  have hother : ∀ m, m ≠ k → m ≠ p → prio (listSwap d k p) m = prio d m :=
    fun m h1 h2 => prio_swap_other h1 h2
  have hlen : (listSwap d k p).length = d.length := listSwap_length d k p
  constructor
  · intro i j hj hij hjp
    rw [hlen] at hj
    by_cases hjk : j = k
    · subst hjk
      have hip : i = p := by rw [hp, isChild_parentIndex hij]
      subst hip
      rw [hdk, hdp]
      exact le_of_lt hlt
    · rw [hother j hjk hjp]
      by_cases hik : i = k
      · subst hik
        rw [hdk]
        exact h.2 j hj hij hk0
      · by_cases hip : i = p
        · subst hip
          rw [hdp]
          exact le_trans (h.1 p j hj hij hjk) (le_of_lt hlt)
        · rw [hother i hik hip]
          exact h.1 i j hj hij hjk
  · intro j hj hpj hp0
    rw [hlen] at hj
    have hg : parentIndex p < p := parentIndex_lt hp0
    have hgk : parentIndex p ≠ k := by omega
    have hgp : parentIndex p ≠ p := by omega
    have hplt : prio d p ≤ prio d (parentIndex p) :=
      h.1 (parentIndex p) p hplen (isChild_parent hp0) (by omega)
    rw [hother (parentIndex p) hgk hgp]
    by_cases hjk : j = k
    · subst hjk
      rw [hdk]
      exact hplt
    · have hjp : j ≠ p := by
        have := isChild_lt hpj
        omega
      rw [hother j hjk hjp]
      exact le_trans (h.1 p j hj hpj hjk) hplt

theorem prio_append {d : List Patient} {x : Patient} {i : Nat}
    (h : i < d.length) : prio (d ++ [x]) i = prio d i := by
  unfold prio
  rw [List.getD_eq_getElem?_getD, List.getElem?_append_left h,
    ← List.getD_eq_getElem?_getD]

theorem upOk_append {d : List Patient} (h : heapInv d) (x : Patient) :
    upOk (d ++ [x]) d.length := by
  constructor
  · intro i j hj hij hjlen
    rw [List.length_append, List.length_singleton] at hj
    have hjd : j < d.length := by omega
    have hid : i < d.length := lt_trans (isChild_lt hij) hjd
    rw [prio_append hjd, prio_append hid]
    exact h j hjd i hid hij
  · intro j hj hij _
    have := isChild_lt hij
    rw [List.length_append, List.length_singleton] at hj
    rcases hij with hc | hc <;> omega

/-- Sift-up correctness: from an `upOk` state the full heap invariant is
restored. -/
theorem siftUp_heapInv (b : Bool) (s : HState) (index : Nat) :
    index < s.data.length → upOk s.data index →
    heapInv (siftUp b s index).data := by
  induction s, index using siftUp.induct b with
  | case1 s =>
    intro _ h
    rw [siftUp]
    simp only [if_pos rfl]
    intro j hj i hi hc
    exact h.1 i j hj hc (by
      intro h0
      exact not_isChild_zero (h0 ▸ hc))
  | case2 s index hne hlt ih =>
    intro hk h
    rw [siftUp, if_neg hne, if_pos hlt]
    apply ih
    · rw [doSwap_data, listSwap_length]
      exact lt_trans (parentIndex_lt hne) hk
    · rw [doSwap_data]
      exact upOk_swap hk hne h hlt
  | case3 s index hne hge =>
    intro hk h
    rw [siftUp, if_neg hne, if_neg hge]
    intro j hj i hi hc
    by_cases hjk : j = index
    · subst hjk
      have hip : i = parentIndex j := (isChild_parentIndex hc).symm
      subst hip
      exact le_of_not_lt hge
    · exact h.1 i j hj hc hjk

theorem maxChild_none {d : List Patient} {comps index comps' : Nat}
    (h : maxChildPriorityIndex d comps index = (none, comps')) :
    d.length ≤ 2 * index + 1 := by
  unfold maxChildPriorityIndex at h
  split at h
  · omega
  · split at h
    · exact absurd h (by simp)
    · split at h <;> exact absurd h (by simp)

theorem maxChild_isChild {d : List Patient} {comps index ci comps' : Nat}
    (h : maxChildPriorityIndex d comps index = (some ci, comps')) :
    isChild index ci := by
  unfold maxChildPriorityIndex at h
  unfold isChild
  split at h
  · exact absurd h (by simp)
  · split at h
    · cases h; omega
    · split at h <;> cases h <;> omega

theorem maxChild_max {d : List Patient} {comps index ci comps' : Nat}
    (h : maxChildPriorityIndex d comps index = (some ci, comps')) :
    ∀ j, j < d.length → isChild index j → prio d j ≤ prio d ci := by
  intro j hj hij
  unfold maxChildPriorityIndex at h
  split at h
  · exact absurd h (by simp)
  · split at h
    · cases h
      rcases hij with hc | hc
      · rw [hc]
      · omega
    · rename_i h1 h2
      split at h <;> cases h <;> rcases hij with hc | hc <;> rw [hc]
      · rename_i hgt
        exact le_of_lt hgt
      · rename_i hgt
        exact le_of_not_lt hgt

theorem downOk_swap {d : List Patient} {t k ci : Nat} (ht : t ≤ k)
    (hk : k < d.length) (hci : isChild k ci) (hcilen : ci < d.length)
    (hmax : ∀ j, j < d.length → isChild k j → prio d j ≤ prio d ci)
    (h : downOk d t k) (hlt : prio d k < prio d ci) :
    downOk (listSwap d k ci) t ci := by
  have hkci : k < ci := isChild_lt hci
  have hdk : prio (listSwap d k ci) k = prio d ci := prio_swap_fst hk hcilen
  have hdci : prio (listSwap d k ci) ci = prio d k := prio_swap_snd hcilen
  have hother : ∀ m, m ≠ k → m ≠ ci → prio (listSwap d k ci) m = prio d m :=
    fun m h1 h2 => prio_swap_other h1 h2
  have hlen : (listSwap d k ci).length = d.length := listSwap_length d k ci
  constructor
  · intro i j hj hij hti hici
    rw [hlen] at hj
    by_cases hik : i = k
    · subst hik
      rw [hdk]
      by_cases hjci : j = ci
      · subst hjci
        rw [hdci]
        exact le_of_lt hlt
      · have hjk : j ≠ i := by
          have := isChild_lt hij
          omega
        rw [hother j hjk hjci]
        exact hmax j hj hij
    · by_cases hjk : j = k
      · subst hjk
        have hk0 : j ≠ 0 := by
          rcases hij with hc | hc <;> omega
        have hi : i = parentIndex j := (isChild_parentIndex hij).symm
        have hiltj : i < j := isChild_lt hij
        have hine : i ≠ ci := by omega
        rw [hdk, hother i hik hine]
        rw [hi]
        exact h.2 ci hcilen hci hk0 (hi ▸ hti)
      · have hjci : j ≠ ci := by
          intro hje
          subst hje
          exact hik ((isChild_parentIndex hij).symm.trans (isChild_parentIndex hci))
        rw [hother j hjk hjci, hother i hik hici]
        exact h.1 i j hj hij hti hik
  · intro j hj hcij hci0 htp
    rw [hlen] at hj
    have hpci : parentIndex ci = k := isChild_parentIndex hci
    rw [hpci, hdk]
    have hcij_lt : ci < j := isChild_lt hcij
    have hjk : j ≠ k := by omega
    have hjci : j ≠ ci := by omega
    rw [hother j hjk hjci]
    exact h.1 ci j hj hcij (by omega) (by omega)

/-- Sift-down correctness, relative to a threshold of already-valid
parents: from a `downOk` state every parent at or beyond the threshold
becomes valid. -/
theorem siftDown_heapFrom (b : Bool) (s : HState) (t : Nat) :
    ∀ index, t ≤ index → downOk s.data t index →
    heapFrom (siftDown b s index).data t := by
  intro index
  induction s, index using siftDown.induct b with
  | case1 s index comps h =>
    intro ht hok
    rw [siftDown_of_none h]
    dsimp only
    intro i j hj hij hti
    by_cases hik : i = index
    · subst hik
      have h1 := maxChild_none h
      have h2 := isChild_lt hij
      rcases hij with hc | hc <;> omega
    · exact hok.1 i j hj hij hti hik
  | case2 s index ci comps h hlt ih =>
    intro ht hok
    rw [siftDown_of_some_lt h hlt]
    have hbounds := maxChild_bounds h
    have hdata : (doSwap b { s with comparisons := comps + 1 } index ci).data
        = listSwap s.data index ci := doSwap_data ..
    have := ih (by omega) (by
      rw [hdata]
      exact downOk_swap ht (lt_trans hbounds.1 hbounds.2) (maxChild_isChild h)
        hbounds.2 (maxChild_max h) hok hlt)
    exact this
  | case3 s index ci comps h hge =>
    intro ht hok
    rw [siftDown_of_some_ge h hge]
    dsimp only
    intro i j hj hij hti
    by_cases hik : i = index
    · subst hik
      exact le_trans (maxChild_max h j hj hij) (le_of_not_lt hge)
    · exact hok.1 i j hj hij hti hik

/-- On an already-valid heap, sift-down performs no swap: the data and the
dictionary are left unchanged (only the comparison counter moves). -/
theorem siftDown_of_heapInv {b : Bool} {s : HState} (h : heapInv s.data)
    (index : Nat) :
    (siftDown b s index).data = s.data ∧
    (siftDown b s index).indices = s.indices := by
  match hmc : maxChildPriorityIndex s.data s.comparisons index with
  | (none, comps) =>
    rw [siftDown_of_none hmc]
    exact ⟨rfl, rfl⟩
  | (some ci, comps) =>
    have hb := maxChild_bounds hmc
    have hge : ¬ prio s.data ci > prio s.data index :=
      not_lt_of_le (h ci hb.2 index (lt_trans hb.1 hb.2) (maxChild_isChild hmc))
    rw [siftDown_of_some_ge hmc hge]
    exact ⟨rfl, rfl⟩

/-! ### Heap preservation by the public operations -/

theorem prio_set_other {d : List Patient} {x : Patient} {i m : Nat}
    (hmi : m ≠ i) : prio (d.set i x) m = prio d m := by
  unfold prio
  rw [List.getD_eq_getElem?_getD, List.getElem?_set_ne (Ne.symm hmi),
    List.getD_eq_getElem?_getD]

theorem prio_set_self {d : List Patient} {x : Patient} {i : Nat}
    (hi : i < d.length) : prio (d.set i x) i = x.priority := by
  unfold prio
  rw [List.getD_eq_getElem?_getD, List.getElem?_set_self hi]
  rfl

theorem prio_dropLast {d : List Patient} {m : Nat} (hm : m < d.length - 1) :
    prio d.dropLast m = prio d m := by
  unfold prio
  rw [List.getD_eq_getElem?_getD, List.dropLast_eq_take,
    List.getElem?_take_of_lt hm, List.getD_eq_getElem?_getD]

/-- `enqueue` preserves the heap invariant (either variant). -/
theorem enqueue_heapInv (b : Bool) (s : HState) (p : Patient)
    (h : heapInv s.data) : heapInv (enqueue b s p).data := by
  unfold enqueue
  have hdata : (if b then
      { s with indices := dictInsert s.indices p.name s.data.length }
      else s).data = s.data := by
    split <;> rfl
  apply siftUp_heapInv
  · rw [hdata]
    simp
  · rw [hdata]
    exact upOk_append h p

/-- The base `dequeue` preserves the heap invariant (either variant). -/
theorem dequeueBase_heapInv {b : Bool} {s s' : HState} {p : Patient}
    (h : heapInv s.data) (hd : dequeueBase b s = some (p, s')) :
    heapInv s'.data := by
  unfold dequeueBase at hd
  split at hd
  · exact absurd hd (by simp)
  · rename_i first hh
    split at hd
    · rename_i h1
      simp only [Option.some_inj, Prod.mk.injEq] at hd
      rw [← hd.2]
      have hne : s.data ≠ [] := by
        intro hnil
        rw [hnil] at hh
        exact absurd hh (by simp)
      have hpos : 0 < s.data.length := List.length_pos.mpr hne
      rw [← heapFrom_zero_iff]
      apply siftDown_heapFrom _ _ _ _ (le_refl 0)
      dsimp only
      constructor
      · intro i j hj hij _ hi0
        simp only [List.length_set, List.length_dropLast] at hj
        have hji : i < j := isChild_lt hij
        have hj0 : j ≠ 0 := by omega
        rw [prio_set_other hj0, prio_set_other hi0, prio_dropLast hj,
          prio_dropLast (by omega)]
        exact h j (by omega) i (by omega) hij
      · intro j hj hij h0 _
        exact absurd rfl h0
    · rename_i h1
      simp only [Option.some_inj, Prod.mk.injEq] at hd
      rw [← hd.2]
      dsimp only
      push_neg at h1
      intro j hj i hi hc
      simp only [List.length_dropLast, h1] at hj hi
      omega

/-- The indexed `dequeue` preserves the heap invariant. -/
theorem dequeueIdx_heapInv {s s' : HState} {p : Patient}
    (h : heapInv s.data) (hd : dequeueIdx s = some (p, s')) :
    heapInv s'.data := by
  unfold dequeueIdx at hd
  rw [Option.bind_eq_some] at hd
  obtain ⟨s1, h1, h2⟩ := hd
  have hdq := dequeuePre_some h1
  exact dequeueBase_heapInv (hdq.1 ▸ h) h2

theorem siftDownAll_heapFrom (b : Bool) :
    ∀ (n : Nat) (s : HState), heapFrom s.data n →
    heapFrom (siftDownAll b s n).data 0 := by
  intro n
  induction n with
  | zero =>
    intro s h
    exact h
  | succ n ih =>
    intro s h
    rw [siftDownAll]
    apply ih
    apply siftDown_heapFrom _ _ _ _ (le_refl n)
    constructor
    · intro i j hj hij hti hin
      exact h i j hj hij (by omega)
    · intro j hj hij h0 htp
      have := parentIndex_lt h0
      omega

/-- Linear heapify establishes the heap invariant from any input. -/
theorem heapifyFast_heapInv (b : Bool) (s : HState) (l : List Patient)
    (h : s.data = []) : heapInv (heapifyFast b s l).data := by
  unfold heapifyFast
  rw [← heapFrom_zero_iff]
  apply siftDownAll_heapFrom
  dsimp only
  rw [h, List.nil_append]
  intro i j hj hij hti
  have := isChild_lt hij
  omega

/-- Incremental heapify establishes the heap invariant from any input. -/
theorem heapifySlow_heapInv (b : Bool) (s : HState) (l : List Patient)
    (h : heapInv s.data) : heapInv (heapifySlow b s l).data := by
  induction l generalizing s with
  | nil => exact h
  | cons p rest ih =>
    rw [heapifySlow, List.foldl_cons]
    exact ih _ (enqueue_heapInv b s p h)

/-- Construction of the base queue satisfies the heap invariant, in either
mode and for any `start_data`. -/
theorem initBase_heapInv (startData : Option (List Patient)) (fast : Bool) :
    heapInv (initBase startData fast).data := by
  unfold initBase
  split
  · exact heapifyFast_heapInv _ _ _ rfl
  · apply heapifySlow_heapInv
    intro j hj
    simp at hj

/-- Construction of the indexed queue satisfies the heap invariant whenever
it succeeds, in either mode. -/
theorem initIndexed_heapInv {startData : Option (List Patient)} {fast : Bool}
    {s : HState} (h : initIndexed startData fast = some s) :
    heapInv s.data := by
  unfold initIndexed at h
  split at h
  · exact absurd h (by simp)
  · rename_i l
    simp only [Option.some_inj] at h
    rw [← h]
    split
    · exact heapifyFast_heapInv _ _ _ rfl
    · apply heapifySlow_heapInv
      intro j hj
      simp at hj

theorem siftUp_zero (b : Bool) (s : HState) : siftUp b s 0 = s := by
  rw [siftUp]
  simp

theorem siftUp_of_no_swap {b : Bool} {s : HState} {index : Nat}
    (hne : index ≠ 0)
    (hge : ¬ prio s.data (parentIndex index) < prio s.data index) :
    siftUp b s index = { s with comparisons := s.comparisons + 1 } := by
  rw [siftUp, if_neg hne, if_neg hge]

theorem siftUp_of_swap {b : Bool} {s : HState} {index : Nat}
    (hne : index ≠ 0)
    (hlt : prio s.data (parentIndex index) < prio s.data index) :
    siftUp b s index =
      siftUp b (doSwap b { s with comparisons := s.comparisons + 1 }
        index (parentIndex index)) (parentIndex index) := by
  rw [siftUp, if_neg hne, if_pos hlt]

theorem heapInv_dropLast {d : List Patient} (h : heapInv d) :
    heapInv d.dropLast := by
  intro j hj i hi hc
  simp only [List.length_dropLast] at hj hi
  rw [prio_dropLast hj, prio_dropLast hi]
  exact h j (by omega) i (by omega) hc

/-- The restructuring step of `remove`: overwrite slot `r` (not the last
slot) with the last element, drop the last slot, then sift up and sift down
from `r`.  The result is a valid heap. -/
theorem remove_restructure_heapInv (b : Bool) (comps : Nat)
    (m2 : List (String × Nat)) (d : List Patient) (r : Nat) (lastp : Patient)
    (h : heapInv d) (hr : r + 1 < d.length)
    (hlast : lastp.priority = prio d (d.length - 1)) :
    heapInv (siftDown b
      (siftUp b ⟨comps, (d.set r lastp).dropLast, m2⟩ r) r).data := by
  set d2 : List Patient := (d.set r lastp).dropLast with hd2
  have hd2len : d2.length = d.length - 1 := by
    rw [hd2]
    simp
  have hrd : r < d.length := by omega
  have hrd2 : r < d2.length := by omega
  have hpother : ∀ m, m < d.length - 1 → m ≠ r → prio d2 m = prio d m := by
    intro m hm hmr
    rw [hd2, prio_dropLast (by simpa using hm), prio_set_other hmr]
  have hpr : prio d2 r = prio d (d.length - 1) := by
    rw [hd2, prio_dropLast (by simp only [List.length_set]; omega),
      prio_set_self hrd]
    exact hlast
  by_cases hr0 : r = 0
  · subst hr0
    rw [siftUp_zero]
    rw [← heapFrom_zero_iff]
    apply siftDown_heapFrom _ _ _ _ (le_refl 0)
    constructor
    · intro i j hj hij _ hi0
      dsimp only at hj ⊢
      have hji : i < j := isChild_lt hij
      rw [hpother j (by omega) (by omega), hpother i (by omega) hi0]
      exact h j (by omega) i (by omega) hij
    · intro j hj hij h0 _
      exact absurd rfl h0
  · have hpar : parentIndex r < r := parentIndex_lt hr0
    have hparR : parentIndex r ≠ r := by omega
    have hparP : prio d2 (parentIndex r) = prio d (parentIndex r) :=
      hpother _ (by omega) hparR
    have hchild : ∀ j, j < d2.length → isChild r j → prio d2 j ≤ prio d r := by
      intro j hj hij
      have hji : r < j := isChild_lt hij
      rw [hpother j (by omega) (by omega)]
      exact h j (by omega) r (by omega) hij
    have hbnd : ∀ j : Nat,
        j < (HState.mk comps d2 m2).data.length → j < d2.length := by
      intro j hj
      exact hj
    have hrpar : prio d r ≤ prio d (parentIndex r) :=
      h r (by omega) (parentIndex r) (by omega) (isChild_parent hr0)
    by_cases hup : prio d2 (parentIndex r) < prio d2 r
    · have hheap3 : heapInv (siftUp b ⟨comps, d2, m2⟩ r).data := by
        apply siftUp_heapInv _ _ _ hrd2
        constructor
        · intro i j hj hij hjr
          replace hj : j < d2.length := hbnd j hj
          by_cases hir : i = r
          · subst hir
            refine le_trans (le_trans (hchild j hj hij) ?_) (le_of_lt hup)
            rw [hparP]
            exact hrpar
          · have hji : i < j := isChild_lt hij
            rw [hpother j (by omega) hjr, hpother i (by omega) hir]
            exact h j (by omega) i (by omega) hij
        · intro j hj hij _
          replace hj : j < d2.length := hbnd j hj
          rw [hparP]
          exact le_trans (hchild j hj hij) hrpar
      exact ((siftDown_of_heapInv hheap3 r).1).symm ▸ hheap3
    · rw [siftUp_of_no_swap hr0 hup]
      rw [← heapFrom_zero_iff]
      apply siftDown_heapFrom _ _ _ _ (Nat.zero_le r)
      constructor
      · intro i j hj hij _ hir
        dsimp only at hj ⊢
        by_cases hjr : j = r
        · subst hjr
          have hipar : i = parentIndex j := (isChild_parentIndex hij).symm
          rw [hipar]
          exact le_of_not_lt hup
        · have hji : i < j := isChild_lt hij
          rw [hpother j (by omega) hjr, hpother i (by omega) hir]
          exact h j (by omega) i (by omega) hij
      · intro j hj hij hk0 _
        dsimp only at hj ⊢
        rw [hparP]
        exact le_trans (hchild j hj hij) hrpar

/-! ### Permutation facts: every operation rearranges, never invents,
elements -/

theorem getD_cons_set_perm (t : List Patient) :
    ∀ (m : Nat) (x : Patient), m < t.length →
    ((t.getD m default) :: (t.set m x)).Perm (x :: t) := by
  induction t with
  | nil =>
    intro m x h
    simp at h
  | cons y u ih =>
    intro m x h
    cases m with
    | zero => exact List.Perm.swap x y u
    | succ m =>
      show ((u.getD m default) :: y :: u.set m x).Perm (x :: y :: u)
      have h1 : ((u.getD m default) :: y :: u.set m x).Perm
          (y :: (u.getD m default) :: u.set m x) := List.Perm.swap _ _ _
      have h2 := (ih m x (by simpa using h)).cons y
      exact h1.trans (h2.trans (List.Perm.swap _ _ _))

theorem listSwap_perm : ∀ (l : List Patient) (i j : Nat),
    i < l.length → j < l.length → (listSwap l i j).Perm l := by
  intro l
  induction l with
  | nil =>
    intro i j hi _
    simp at hi
  | cons x t ih =>
    intro i j hi hj
    cases i with
    | zero =>
      cases j with
      | zero =>
        show ((x :: t).Perm (x :: t))
        exact List.Perm.refl _
      | succ m =>
        show ((t.getD m default) :: t.set m x).Perm (x :: t)
        exact getD_cons_set_perm t m x (by simpa using hj)
    | succ n =>
      cases j with
      | zero =>
        show ((t.getD n default) :: t.set n x).Perm (x :: t)
        exact getD_cons_set_perm t n x (by simpa using hi)
      | succ m =>
        show (x :: listSwap t n m).Perm (x :: t)
        exact (ih n m (by simpa using hi) (by simpa using hj)).cons x

theorem siftUp_perm (b : Bool) (s : HState) (index : Nat) :
    index < s.data.length → (siftUp b s index).data.Perm s.data := by
  induction s, index using siftUp.induct b with
  | case1 s =>
    intro _
    rw [siftUp_zero]
  | case2 s index hne hlt ih =>
    intro hidx
    rw [siftUp_of_swap hne hlt]
    have hp : parentIndex index < index := parentIndex_lt hne
    refine (ih ?_).trans ?_
    · rw [doSwap_data, listSwap_length]
      exact lt_trans hp hidx
    · rw [doSwap_data]
      exact listSwap_perm _ _ _ hidx (lt_trans hp hidx)
  | case3 s index hne hge =>
    intro _
    rw [siftUp_of_no_swap hne hge]

theorem siftDown_perm (b : Bool) (s : HState) (index : Nat) :
    (siftDown b s index).data.Perm s.data := by
  induction s, index using siftDown.induct b with
  | case1 s index comps h => rw [siftDown_of_none h]
  | case2 s index ci comps h hlt ih =>
    rw [siftDown_of_some_lt h hlt]
    have hb := maxChild_bounds h
    refine ih.trans ?_
    rw [doSwap_data]
    exact listSwap_perm _ _ _ (lt_trans hb.1 hb.2) hb.2
  | case3 s index ci comps h hge => rw [siftDown_of_some_ge h hge]

theorem siftDownAll_perm (b : Bool) :
    ∀ (n : Nat) (s : HState), (siftDownAll b s n).data.Perm s.data := by
  intro n
  induction n with
  | zero =>
    intro s
    exact List.Perm.refl _
  | succ n ih =>
    intro s
    rw [siftDownAll]
    exact (ih _).trans (siftDown_perm b s n)

theorem enqueue_perm (b : Bool) (s : HState) (p : Patient) :
    (enqueue b s p).data.Perm (s.data ++ [p]) := by
  cases b
  · show (siftUp false { s with data := s.data ++ [p] }
      s.data.length).data.Perm _
    have := siftUp_perm false { s with data := s.data ++ [p] }
      s.data.length (by simp)
    simpa using this
  · show (siftUp true
      { comparisons := s.comparisons, data := s.data ++ [p],
        indices := dictInsert s.indices p.name s.data.length }
      s.data.length).data.Perm _
    have := siftUp_perm true
      { comparisons := s.comparisons, data := s.data ++ [p],
        indices := dictInsert s.indices p.name s.data.length }
      s.data.length (by simp)
    simpa using this

theorem heapifySlow_perm (b : Bool) :
    ∀ (l : List Patient) (s : HState),
    (heapifySlow b s l).data.Perm (s.data ++ l) := by
  intro l
  induction l with
  | nil =>
    intro s
    simp [heapifySlow]
  | cons p rest ih =>
    intro s
    rw [heapifySlow, List.foldl_cons]
    refine (ih _).trans ?_
    have h1 := (enqueue_perm b s p).append_right rest
    refine h1.trans ?_
    rw [List.append_assoc, List.singleton_append]

theorem heapifyFast_perm (b : Bool) (s : HState) (l : List Patient) :
    (heapifyFast b s l).data.Perm (s.data ++ l) := by
  unfold heapifyFast
  exact siftDownAll_perm b _ _

theorem dequeueBase_perm {b : Bool} {s s' : HState} {p : Patient}
    (h : dequeueBase b s = some (p, s')) : s.data.Perm (p :: s'.data) := by
  unfold dequeueBase at h
  split at h
  · exact absurd h (by simp)
  · rename_i first hh
    obtain ⟨t, hd⟩ : ∃ t, s.data = first :: t := by
      cases hds : s.data with
      | nil =>
        rw [hds] at hh
        exact absurd hh (by simp)
      | cons a u =>
        rw [hds] at hh
        simp only [List.head?_cons, Option.some_inj] at hh
        exact ⟨u, by rw [hh]⟩
    split at h
    · rename_i h1
      simp only [Option.some_inj, Prod.mk.injEq] at h
      obtain ⟨hp, hs'⟩ := h
      subst hp
      have ht : t ≠ [] := by
        intro htn
        rw [hd, htn] at h1
        simp at h1
      have hperm : s'.data.Perm ((s.data.dropLast).set 0
          ((s.data.getLast?).getD default)) := by
        rw [← hs']
        exact siftDown_perm b _ 0
      have hlast : s.data.getLast? = some (t.getLast ht) := by
        rw [hd, List.getLast?_eq_getLast _ (by simp), List.getLast_cons ht]
      have hdrop : s.data.dropLast = first :: t.dropLast := by
        rw [hd, List.dropLast_cons_of_ne_nil ht]
      have hset : (s.data.dropLast).set 0 ((s.data.getLast?).getD default)
          = (t.getLast ht) :: t.dropLast := by
        rw [hdrop, hlast]
        rfl
      rw [hset] at hperm
      have hmid0 : (t.dropLast ++ [t.getLast ht]).Perm
          ((t.getLast ht) :: (t.dropLast ++ [])) := List.perm_middle
      rw [List.append_nil] at hmid0
      have hmid : ((t.getLast ht) :: t.dropLast).Perm t := by
        have h2 := hmid0.symm
        rw [List.dropLast_append_getLast ht] at h2
        exact h2
      rw [hd]
      exact List.Perm.cons first (hmid.symm.trans hperm.symm)
    · rename_i h1
      simp only [Option.some_inj, Prod.mk.injEq] at h
      obtain ⟨hp, hs'⟩ := h
      subst hp
      push_neg at h1
      rw [hd] at h1
      simp only [List.length_cons] at h1
      have ht : t = [] := List.eq_nil_of_length_eq_zero (by omega)
      rw [← hs', hd, ht]
      exact List.Perm.refl _

theorem dequeueIdx_perm {s s' : HState} {p : Patient}
    (h : dequeueIdx s = some (p, s')) : s.data.Perm (p :: s'.data) := by
  unfold dequeueIdx at h
  rw [Option.bind_eq_some] at h
  obtain ⟨s1, h1, h2⟩ := h
  have hd := (dequeuePre_some h1).1
  exact hd ▸ dequeueBase_perm h2

theorem dequeueOp_perm {b : Bool} {s s' : HState} {p : Patient}
    (h : dequeueOp b s = some (p, s')) : s.data.Perm (p :: s'.data) := by
  unfold dequeueOp at h
  split at h
  · exact dequeueIdx_perm h
  · exact dequeueBase_perm h

/-! ### Dictionary lemmas -/

theorem dictLookup_insert_self (m : List (String × Nat)) (k : String) (v : Nat) :
    dictLookup (dictInsert m k v) k = some v := by
  induction m with
  | nil =>
    show (if k = k then some v else none) = some v
    rw [if_pos rfl]
  | cons e rest ih =>
    obtain ⟨k', v'⟩ := e
    show dictLookup (if k' = k then (k, v) :: rest
        else (k', v') :: dictInsert rest k v) k = some v
    by_cases h : k' = k
    · rw [if_pos h]
      show (if k = k then some v else dictLookup rest k) = some v
      rw [if_pos rfl]
    · rw [if_neg h]
      show (if k' = k then some v' else dictLookup (dictInsert rest k v) k)
          = some v
      rw [if_neg h]
      exact ih

theorem dictLookup_insert_ne {k' k : String} (h : k' ≠ k)
    (m : List (String × Nat)) (v : Nat) :
    dictLookup (dictInsert m k v) k' = dictLookup m k' := by
  induction m with
  | nil =>
    show (if k = k' then some v else none) = none
    rw [if_neg (Ne.symm h)]
  | cons e rest ih =>
    obtain ⟨k'', v''⟩ := e
    show dictLookup (if k'' = k then (k, v) :: rest
        else (k'', v'') :: dictInsert rest k v) k'
      = if k'' = k' then some v'' else dictLookup rest k'
    by_cases h2 : k'' = k
    · rw [if_pos h2]
      show (if k = k' then some v else dictLookup rest k')
          = if k'' = k' then some v'' else dictLookup rest k'
      rw [if_neg (Ne.symm h), if_neg (by rw [h2]; exact Ne.symm h)]
    · rw [if_neg h2]
      show (if k'' = k' then some v'' else dictLookup (dictInsert rest k v) k')
          = if k'' = k' then some v'' else dictLookup rest k'
      rw [ih]

theorem dictLookup_isSome_insert {m : List (String × Nat)} {k : String}
    {v : Nat} (h : (dictLookup m k).isSome) (k' : String) :
    (dictLookup (dictInsert m k v) k').isSome = (dictLookup m k').isSome := by
  by_cases hk : k' = k
  · subst hk
    rw [dictLookup_insert_self]
    simp only [Option.isSome_some]
    exact h.symm
  · rw [dictLookup_insert_ne hk]

theorem dictInsert_length_of_present {m : List (String × Nat)} {k : String}
    (h : (dictLookup m k).isSome) (v : Nat) :
    (dictInsert m k v).length = m.length := by
  induction m with
  | nil => simp [dictLookup] at h
  | cons e rest ih =>
    obtain ⟨k', v'⟩ := e
    show (if k' = k then (k, v) :: rest
        else (k', v') :: dictInsert rest k v).length = rest.length + 1
    by_cases h2 : k' = k
    · rw [if_pos h2]
      rfl
    · rw [if_neg h2]
      show (dictInsert rest k v).length + 1 = rest.length + 1
      have h3 : (dictLookup rest k).isSome := by
        have : dictLookup ((k', v') :: rest) k
            = if k' = k then some v' else dictLookup rest k := rfl
        rw [this, if_neg h2] at h
        exact h
      rw [ih h3]

theorem dictInsert_length_of_absent {m : List (String × Nat)} {k : String}
    (h : dictLookup m k = none) (v : Nat) :
    (dictInsert m k v).length = m.length + 1 := by
  induction m with
  | nil => rfl
  | cons e rest ih =>
    obtain ⟨k', v'⟩ := e
    have hk : dictLookup ((k', v') :: rest) k
        = if k' = k then some v' else dictLookup rest k := rfl
    rw [hk] at h
    show (if k' = k then (k, v) :: rest
        else (k', v') :: dictInsert rest k v).length = rest.length + 1 + 1
    by_cases h2 : k' = k
    · rw [if_pos h2] at h
      exact absurd h (by simp)
    · rw [if_neg h2] at h
      rw [if_neg h2]
      show (dictInsert rest k v).length + 1 = rest.length + 1 + 1
      rw [ih h]

theorem dictLookup_erase_ne {k' k : String} (h : k' ≠ k)
    (m : List (String × Nat)) :
    dictLookup (dictErase m k) k' = dictLookup m k' := by
  induction m with
  | nil => rfl
  | cons e rest ih =>
    obtain ⟨k'', v''⟩ := e
    show dictLookup (if k'' = k then rest else (k'', v'') :: dictErase rest k) k'
      = if k'' = k' then some v'' else dictLookup rest k'
    by_cases h2 : k'' = k
    · rw [if_pos h2]
      rw [if_neg (by rw [h2]; exact Ne.symm h)]
    · rw [if_neg h2]
      show (if k'' = k' then some v'' else dictLookup (dictErase rest k) k')
          = if k'' = k' then some v'' else dictLookup rest k'
      rw [ih]

theorem dictErase_length {m : List (String × Nat)} {k : String}
    (h : (dictLookup m k).isSome) :
    (dictErase m k).length + 1 = m.length := by
  induction m with
  | nil => simp [dictLookup] at h
  | cons e rest ih =>
    obtain ⟨k', v'⟩ := e
    have hk : dictLookup ((k', v') :: rest) k
        = if k' = k then some v' else dictLookup rest k := rfl
    rw [hk] at h
    show (if k' = k then rest else (k', v') :: dictErase rest k).length + 1
        = rest.length + 1
    by_cases h2 : k' = k
    · rw [if_pos h2]
    · rw [if_neg h2] at h
      rw [if_neg h2]
      show (dictErase rest k).length + 1 + 1 = rest.length + 1
      rw [ih h]

theorem mem_keys_of_lookup {m : List (String × Nat)} {k : String} {v : Nat}
    (h : dictLookup m k = some v) : k ∈ m.map Prod.fst := by
  induction m with
  | nil => simp [dictLookup] at h
  | cons e rest ih =>
    obtain ⟨k', v'⟩ := e
    by_cases h2 : k' = k
    · subst h2
      simp
    · rw [dictLookup, if_neg h2] at h
      simp only [List.map_cons, List.mem_cons]
      exact Or.inr (ih h)

theorem lookup_isSome_of_mem_keys {m : List (String × Nat)} {k : String}
    (h : k ∈ m.map Prod.fst) : (dictLookup m k).isSome := by
  induction m with
  | nil => simp at h
  | cons e rest ih =>
    obtain ⟨k', v'⟩ := e
    show (if k' = k then some v' else dictLookup rest k).isSome
    by_cases h2 : k' = k
    · rw [if_pos h2]
      rfl
    · rw [if_neg h2]
      simp only [List.map_cons, List.mem_cons] at h
      rcases h with h | h
      · exact absurd h.symm h2
      · exact ih h

/-! ### The position-map invariant -/

/-- The position-index invariant exactly as the specification states it:
`position[storage[i].key] == i` for every valid index `i`, and the map
holds exactly one entry per element currently stored (entry count equals
element count). -/
def posInv (s : HState) : Prop :=
  (∀ i, i < s.data.length →
    dictLookup s.indices ((s.data.getD i default).name) = some i) ∧
  s.indices.length = s.data.length

instance (s : HState) : Decidable (posInv s) := by
  unfold posInv
  infer_instance

theorem posInv_name_inj {s : HState} (h : posInv s) {i j : Nat}
    (hi : i < s.data.length) (hj : j < s.data.length)
    (hn : (s.data.getD i default).name = (s.data.getD j default).name) :
    i = j := by
  have h1 := h.1 i hi
  have h2 := h.1 j hj
  rw [hn] at h1
  rw [h1] at h2
  injection h2

/-- Under `posInv` the map holds no spurious entries: every successful
lookup points at the in-range slot holding that very name. -/
theorem posInv_lookup_complete {s : HState} (h : posInv s) {n : String}
    {r : Nat} (hl : dictLookup s.indices n = some r) :
    r < s.data.length ∧ (s.data.getD r default).name = n := by
  set names : List String :=
    (List.range s.data.length).map (fun i => (s.data.getD i default).name)
    with hnames
  have hlen : names.length = s.data.length := by simp [hnames]
  have hnodup : names.Nodup := by
    rw [hnames]
    refine List.Nodup.map_on ?_ (List.nodup_range _)
    intro x hx y hy hxy
    exact posInv_name_inj h (List.mem_range.mp hx) (List.mem_range.mp hy) hxy
  have hsub : names ⊆ s.indices.map Prod.fst := by
    intro x hx
    rw [hnames] at hx
    simp only [List.mem_map, List.mem_range] at hx
    obtain ⟨i, hi, hxi⟩ := hx
    exact mem_keys_of_lookup (hxi ▸ h.1 i hi)
  have hkeylen : (s.indices.map Prod.fst).length = s.data.length := by
    simp [h.2]
  have hall : ∀ x ∈ s.indices.map Prod.fst, x ∈ names := by
    intro x hx
    by_contra hnx
    have h4 : (x :: names).Nodup := by simp [hnodup, hnx]
    have h5 : (x :: names) ⊆ s.indices.map Prod.fst := by
      intro y hy
      rcases List.mem_cons.mp hy with hy | hy
      · exact hy ▸ hx
      · exact hsub hy
    have h6 := (List.subperm_of_subset h4 h5).length_le
    simp only [List.length_cons, hlen, hkeylen] at h6
    omega
  have hn2 : n ∈ names := hall n (mem_keys_of_lookup hl)
  rw [hnames] at hn2
  simp only [List.mem_map, List.mem_range] at hn2
  obtain ⟨i, hi, hni⟩ := hn2
  have h7 := h.1 i hi
  rw [hni] at h7
  rw [h7] at hl
  injection hl with hl
  subst hl
  exact ⟨hi, hni⟩

/-! ### Element-level reads through the structural updates -/

theorem getD_set_self {d : List Patient} {x : Patient} {i : Nat}
    (hi : i < d.length) : (d.set i x).getD i default = x := by
  rw [List.getD_eq_getElem?_getD, List.getElem?_set_self hi]
  rfl

theorem getD_set_other {d : List Patient} {x : Patient} {i m : Nat}
    (hmi : m ≠ i) : (d.set i x).getD m default = d.getD m default := by
  rw [List.getD_eq_getElem?_getD, List.getElem?_set_ne (Ne.symm hmi),
    List.getD_eq_getElem?_getD]

theorem getD_dropLast {d : List Patient} {m : Nat} (hm : m < d.length - 1) :
    d.dropLast.getD m default = d.getD m default := by
  rw [List.getD_eq_getElem?_getD, List.dropLast_eq_take,
    List.getElem?_take_of_lt hm, List.getD_eq_getElem?_getD]

theorem getD_append_lt {d l : List Patient} {k : Nat} (hk : k < d.length) :
    (d ++ l).getD k default = d.getD k default := by
  rw [List.getD_eq_getElem?_getD, List.getElem?_append_left hk,
    List.getD_eq_getElem?_getD]

theorem getD_append_len {d : List Patient} {p : Patient} :
    (d ++ [p]).getD d.length default = p := by
  rw [List.getD_eq_getElem?_getD]
  rw [List.getElem?_append_right (le_refl _)]
  simp

theorem getLast?_eq_getD {d : List Patient} (h : d ≠ []) :
    d.getLast? = some (d.getD (d.length - 1) default) := by
  rw [List.getLast?_eq_getLast _ h, List.getLast_eq_getElem]
  rw [List.getD_eq_getElem?_getD,
    List.getElem?_eq_getElem (by
      have := List.length_pos.mpr h
      omega)]
  rfl

theorem listSwap_getD_fst {l : List Patient} {i j : Nat}
    (hi : i < l.length) (hj : j < l.length) :
    (listSwap l i j).getD i default = l.getD j default := by
  unfold listSwap
  by_cases hij : i = j
  · subst hij
    rw [List.getD_eq_getElem?_getD, List.getElem?_set_self (by simpa using hi)]
    rfl
  · rw [List.getD_eq_getElem?_getD, List.getElem?_set_ne (Ne.symm hij),
      List.getElem?_set_self hi]
    rfl

theorem listSwap_getD_snd {l : List Patient} {i j : Nat} (hj : j < l.length) :
    (listSwap l i j).getD j default = l.getD i default := by
  unfold listSwap
  rw [List.getD_eq_getElem?_getD, List.getElem?_set_self (by simpa using hj)]
  rfl

theorem listSwap_getD_other {l : List Patient} {i j k : Nat}
    (h1 : k ≠ i) (h2 : k ≠ j) :
    (listSwap l i j).getD k default = l.getD k default := by
  unfold listSwap
  rw [List.getD_eq_getElem?_getD, List.getElem?_set_ne (Ne.symm h2),
    List.getElem?_set_ne (Ne.symm h1), List.getD_eq_getElem?_getD]

/-- The pointwise component of `posInv`, threaded separately through the
sift procedures (the entry count is handled once per operation). -/
def pw (s : HState) : Prop :=
  ∀ i, i < s.data.length →
    dictLookup s.indices ((s.data.getD i default).name) = some i

theorem posInv_def {s : HState} :
    posInv s ↔ pw s ∧ s.indices.length = s.data.length := Iff.rfl

theorem pw_name_inj {s : HState} (h : pw s) {i j : Nat}
    (hi : i < s.data.length) (hj : j < s.data.length)
    (hn : (s.data.getD i default).name = (s.data.getD j default).name) :
    i = j := by
  have h1 := h i hi
  have h2 := h j hj
  rw [hn] at h1
  rw [h1] at h2
  injection h2

theorem doSwap_true_indices (s : HState) (i j : Nat) :
    (doSwap true s i j).indices =
      dictInsert (dictInsert s.indices
        ((listSwap s.data i j).getD i default).name i)
        ((listSwap s.data i j).getD j default).name j := rfl

/-- The subclass's `_swap` keeps the dictionary pointwise-correct, and
neither its entry count nor its key set changes. -/
theorem pw_doSwap {s : HState} {i j : Nat} (hpw : pw s)
    (hi : i < s.data.length) (hj : j < s.data.length) :
    pw (doSwap true s i j) ∧
    (doSwap true s i j).indices.length = s.indices.length ∧
    (∀ n, (dictLookup (doSwap true s i j).indices n).isSome
        = (dictLookup s.indices n).isSome) := by
  have hm' : (doSwap true s i j).indices
      = dictInsert (dictInsert s.indices (s.data.getD j default).name i)
          (s.data.getD i default).name j := by
    rw [doSwap_true_indices, listSwap_getD_fst hi hj, listSwap_getD_snd hj]
  have hpresent1 : (dictLookup s.indices (s.data.getD j default).name).isSome := by
    rw [hpw j hj]
    rfl
  have hpresent0 : (dictLookup s.indices (s.data.getD i default).name).isSome := by
    rw [hpw i hi]
    rfl
  have hpresent2 : (dictLookup
      (dictInsert s.indices (s.data.getD j default).name i)
      (s.data.getD i default).name).isSome := by
    rw [dictLookup_isSome_insert hpresent1]
    exact hpresent0
  refine ⟨?_, ?_, ?_⟩
  · intro k hk
    rw [doSwap_data, listSwap_length] at hk
    rw [hm', doSwap_data]
    by_cases hkj : k = j
    · subst hkj
      rw [listSwap_getD_snd hj, dictLookup_insert_self]
    · by_cases hki : k = i
      · rw [hki, listSwap_getD_fst hi hj]
        have hne : (s.data.getD j default).name
            ≠ (s.data.getD i default).name := by
          intro he
          exact hkj (hki.trans (pw_name_inj hpw hj hi he).symm)
        rw [dictLookup_insert_ne hne, dictLookup_insert_self]
      · rw [listSwap_getD_other hki hkj]
        have hne1 : (s.data.getD k default).name
            ≠ (s.data.getD i default).name := by
          intro he
          exact hki (pw_name_inj hpw hk hi he)
        have hne2 : (s.data.getD k default).name
            ≠ (s.data.getD j default).name := by
          intro he
          exact hkj (pw_name_inj hpw hk hj he)
        rw [dictLookup_insert_ne hne1, dictLookup_insert_ne hne2]
        exact hpw k hk
  · rw [hm', dictInsert_length_of_present hpresent2,
      dictInsert_length_of_present hpresent1]
  · intro n
    rw [hm', dictLookup_isSome_insert hpresent2,
      dictLookup_isSome_insert hpresent1]

theorem siftUp_pw (s : HState) (index : Nat) :
    index < s.data.length → pw s →
    pw (siftUp true s index) ∧
    (siftUp true s index).indices.length = s.indices.length ∧
    (∀ n, (dictLookup (siftUp true s index).indices n).isSome
        = (dictLookup s.indices n).isSome) := by
  induction s, index using siftUp.induct true with
  | case1 s =>
    intro _ hpw
    rw [siftUp_zero]
    exact ⟨hpw, rfl, fun n => rfl⟩
  | case2 s index hne hlt ih =>
    intro hidx hpw
    rw [siftUp_of_swap hne hlt]
    have hp : parentIndex index < index := parentIndex_lt hne
    have hsw := @pw_doSwap { s with comparisons := s.comparisons + 1 }
      index (parentIndex index) hpw hidx (lt_trans hp hidx)
    obtain ⟨hsw1, hsw2, hsw3⟩ := hsw
    have hlen : (doSwap true { s with comparisons := s.comparisons + 1 }
        index (parentIndex index)).data.length = s.data.length := by
      rw [doSwap_data, listSwap_length]
    obtain ⟨h1, h2, h3⟩ := ih (by rw [hlen]; exact lt_trans hp hidx) hsw1
    exact ⟨h1, by rw [h2, hsw2], fun n => by rw [h3 n, hsw3 n]⟩
  | case3 s index hne hge =>
    intro _ hpw
    rw [siftUp_of_no_swap hne hge]
    exact ⟨hpw, rfl, fun n => rfl⟩

theorem siftDown_pw (s : HState) (index : Nat) : pw s →
    pw (siftDown true s index) ∧
    (siftDown true s index).indices.length = s.indices.length ∧
    (∀ n, (dictLookup (siftDown true s index).indices n).isSome
        = (dictLookup s.indices n).isSome) := by
  induction s, index using siftDown.induct true with
  | case1 s index comps h =>
    intro hpw
    rw [siftDown_of_none h]
    exact ⟨hpw, rfl, fun n => rfl⟩
  | case2 s index ci comps h hlt ih =>
    intro hpw
    rw [siftDown_of_some_lt h hlt]
    have hb := maxChild_bounds h
    have hsw := @pw_doSwap { s with comparisons := comps + 1 }
      index ci hpw (lt_trans hb.1 hb.2) hb.2
    obtain ⟨hsw1, hsw2, hsw3⟩ := hsw
    obtain ⟨h1, h2, h3⟩ := ih hsw1
    exact ⟨h1, by rw [h2, hsw2], fun n => by rw [h3 n, hsw3 n]⟩
  | case3 s index ci comps h hge =>
    intro hpw
    rw [siftDown_of_some_ge h hge]
    exact ⟨hpw, rfl, fun n => rfl⟩

theorem enqueue_true_def (s : HState) (p : Patient) :
    enqueue true s p = siftUp true
      ⟨s.comparisons, s.data ++ [p],
        dictInsert s.indices p.name s.data.length⟩ s.data.length := rfl

/-- Indexed `enqueue` with a fresh key preserves the position invariant. -/
theorem enqueue_posInv {s : HState} {p : Patient} (h : posInv s)
    (hfresh : dictLookup s.indices p.name = none) :
    posInv (enqueue true s p) := by
  rw [enqueue_true_def]
  set s1 : HState := ⟨s.comparisons, s.data ++ [p],
    dictInsert s.indices p.name s.data.length⟩ with hs1
  have hpw1 : pw s1 := by
    intro k hk
    show dictLookup (dictInsert s.indices p.name s.data.length)
      (((s.data ++ [p]).getD k default).name) = some k
    have hk' : k < s.data.length + 1 := by
      rw [hs1] at hk
      simpa using hk
    by_cases hkl : k = s.data.length
    · rw [hkl, getD_append_len, dictLookup_insert_self]
    · have hklt : k < s.data.length := by omega
      rw [getD_append_lt hklt]
      have hne : ((s.data.getD k default).name) ≠ p.name := by
        intro he
        have h2 := h.1 k hklt
        rw [he, hfresh] at h2
        exact absurd h2 (by simp)
      rw [dictLookup_insert_ne hne]
      exact h.1 k hklt
  have hlen1 : s1.indices.length = s1.data.length := by
    show (dictInsert s.indices p.name s.data.length).length
        = (s.data ++ [p]).length
    rw [dictInsert_length_of_absent hfresh, h.2]
    simp
  have hidx : s.data.length < s1.data.length := by
    show s.data.length < (s.data ++ [p]).length
    simp
  obtain ⟨h1, h2, _⟩ := siftUp_pw s1 s.data.length hidx hpw1
  exact ⟨h1, by rw [h2, hlen1, siftUp_data_length]⟩

theorem head?_eq_getD {d : List Patient} (h : d ≠ []) :
    d.head? = some (d.getD 0 default) := by
  cases d with
  | nil => exact absurd rfl h
  | cons x t => rfl

/-- The state the base `dequeue` builds when more than one element remains:
last element moved into the root slot, then sift-down from the root. -/
def dequeueMid (b : Bool) (s : HState) : HState :=
  siftDown b
    { s with data := (s.data.dropLast).set 0 ((s.data.getLast?).getD default) }
    0

/-- Forward characterization of the base `dequeue` on success. -/
theorem dequeueBase_some {b : Bool} {s s' : HState} {p : Patient}
    (h : dequeueBase b s = some (p, s')) :
    s.data ≠ [] ∧ p = s.data.getD 0 default ∧
    ((s.data.length = 1 ∧ s' = { s with data := s.data.dropLast }) ∨
     (s.data.length ≥ 2 ∧ s' = dequeueMid b s)) := by
  unfold dequeueBase at h
  split at h
  · exact absurd h (by simp)
  · rename_i first hh
    have hne : s.data ≠ [] := by
      intro hnil
      rw [hnil] at hh
      exact absurd hh (by simp)
    have hfirst : first = s.data.getD 0 default := by
      rw [head?_eq_getD hne] at hh
      injection hh with hh2
      exact hh2.symm
    split at h
    · rename_i h1
      simp only [Option.some_inj, Prod.mk.injEq] at h
      refine ⟨hne, h.1 ▸ hfirst, Or.inr ⟨?_, h.2.symm⟩⟩
      have := List.length_pos.mpr hne
      omega
    · rename_i h1
      push_neg at h1
      simp only [Option.some_inj, Prod.mk.injEq] at h
      exact ⟨hne, h.1 ▸ hfirst, Or.inl ⟨h1, h.2.symm⟩⟩

/-- Success characterization of `dequeuePre` under the position invariant. -/
theorem dequeuePre_of_posInv {s : HState} (h : posInv s) (hne : s.data ≠ []) :
    ∃ m2, dequeuePre s = some { s with indices := m2 } ∧
      ((s.data.length = 1 ∧ m2 = dictErase s.indices
          ((s.data.getD 0 default).name)) ∨
       (s.data.length ≥ 2 ∧ m2 = dictErase
          (dictInsert s.indices
            ((s.data.getD (s.data.length - 1) default).name) 0)
          ((s.data.getD 0 default).name))) := by
  have hpos : 0 < s.data.length := List.length_pos.mpr hne
  have hlook0 : dictLookup s.indices ((s.data.getD 0 default).name)
      = some 0 := h.1 0 hpos
  by_cases hone : s.data.length = 1
  · refine ⟨dictErase s.indices ((s.data.getD 0 default).name), ?_, Or.inl ⟨hone, rfl⟩⟩
    unfold dequeuePre
    rw [if_neg (by rw [h.2]; omega)]
    rw [head?_eq_getD hne]
    show (dictDelete s.indices ((s.data.getD 0 default).name)).map
        (fun m2 => { s with indices := m2 }) = _
    unfold dictDelete
    rw [if_pos (by rw [hlook0]; rfl)]
    rfl
  · have h2 : s.data.length ≥ 2 := by omega
    have hlookL : dictLookup s.indices
        ((s.data.getD (s.data.length - 1) default).name)
        = some (s.data.length - 1) := h.1 _ (by omega)
    have hnmne : (s.data.getD 0 default).name
        ≠ (s.data.getD (s.data.length - 1) default).name := by
      intro he
      have := posInv_name_inj h hpos (by omega) he
      omega
    refine ⟨_, ?_, Or.inr ⟨h2, rfl⟩⟩
    unfold dequeuePre
    rw [if_pos (by rw [h.2]; omega)]
    rw [getLast?_eq_getD hne, head?_eq_getD hne]
    show (dictDelete (dictInsert s.indices
        ((s.data.getD (s.data.length - 1) default).name) 0)
        ((s.data.getD 0 default).name)).map
        (fun m2 => { s with indices := m2 }) = _
    unfold dictDelete
    rw [if_pos (by
      rw [dictLookup_insert_ne hnmne, hlook0]
      rfl)]
    rfl

theorem dequeueIdx_some_pre {s s' : HState} {p : Patient}
    (h : dequeueIdx s = some (p, s')) :
    ∃ s1, dequeuePre s = some s1 ∧ dequeueBase true s1 = some (p, s') := by
  unfold dequeueIdx at h
  rw [Option.bind_eq_some] at h
  exact h

/-- Indexed `dequeue` preserves the position invariant. -/
theorem dequeueIdx_posInv {s s' : HState} {p : Patient} (h : posInv s)
    (hd : dequeueIdx s = some (p, s')) : posInv s' := by
  obtain ⟨s1, hpre, hbase⟩ := dequeueIdx_some_pre hd
  have hchar := dequeueBase_some hbase
  have hs1data : s1.data = s.data := (dequeuePre_some hpre).1
  have hne : s.data ≠ [] := by
    rw [← hs1data]
    exact hchar.1
  obtain ⟨m2, hpre2, hm2⟩ := dequeuePre_of_posInv h hne
  rw [hpre2] at hpre
  have hs1 : s1 = { s with indices := m2 } := by
    injection hpre with hpre
    exact hpre.symm
  subst hs1
  rcases hm2 with ⟨hone, hm2e⟩ | ⟨hlong, hm2e⟩
  · rcases hchar.2.2 with ⟨_, hs'⟩ | ⟨habs, _⟩
    · rw [hs']
      constructor
      · intro k hk
        dsimp only at hk
        simp only [List.length_dropLast, hone] at hk
        omega
      · show m2.length = (s.data.dropLast).length
        have hpos : 0 < s.data.length := List.length_pos.mpr hne
        have hpresent0 : (dictLookup s.indices
            ((s.data.getD 0 default).name)).isSome := by
          rw [h.1 0 hpos]
          rfl
        rw [hm2e]
        have he1 := dictErase_length hpresent0
        have hIL := h.2
        simp only [List.length_dropLast]
        omega
    · dsimp only at habs
      omega
  · rcases hchar.2.2 with ⟨hone1, _⟩ | ⟨_, hs'⟩
    · dsimp only at hone1
      omega
    · rw [hs']
      show posInv (dequeueMid true { s with indices := m2 })
      have hn : s.data.length ≥ 2 := hlong
      have hpos : 0 < s.data.length := by omega
      have hlastD : ({ s with indices := m2 } : HState).data.getLast?
          = some (s.data.getD (s.data.length - 1) default) :=
        getLast?_eq_getD hne
      have hs2 : dequeueMid true { s with indices := m2 }
          = siftDown true ⟨s.comparisons,
              (s.data.dropLast).set 0 (s.data.getD (s.data.length - 1) default),
              m2⟩ 0 := by
        unfold dequeueMid
        rw [hlastD]
        rfl
      rw [hs2]
      set d2 : List Patient := (s.data.dropLast).set 0
        (s.data.getD (s.data.length - 1) default) with hd2
      have hd2len : d2.length = s.data.length - 1 := by
        rw [hd2]
        simp
      have hname_ne : (s.data.getD 0 default).name
          ≠ (s.data.getD (s.data.length - 1) default).name := by
        intro he
        have := posInv_name_inj h hpos (by omega) he
        omega
      have hpw2 : pw ⟨s.comparisons, d2, m2⟩ := by
        intro k hk
        show dictLookup m2 ((d2.getD k default).name) = some k
        have hk' : k < s.data.length - 1 := by
          have : (⟨s.comparisons, d2, m2⟩ : HState).data.length = d2.length := rfl
          rw [this, hd2len] at hk
          exact hk
        by_cases hk0 : k = 0
        · subst hk0
          have : d2.getD 0 default
              = s.data.getD (s.data.length - 1) default := by
            rw [hd2]
            exact getD_set_self (by simp; omega)
          rw [this, hm2e, dictLookup_erase_ne (Ne.symm hname_ne),
            dictLookup_insert_self]
        · have : d2.getD k default = s.data.getD k default := by
            rw [hd2, getD_set_other hk0, getD_dropLast hk']
          rw [this]
          have hne0 : (s.data.getD k default).name
              ≠ (s.data.getD 0 default).name := by
            intro he
            exact hk0 (posInv_name_inj h (by omega) hpos he)
          have hneL : (s.data.getD k default).name
              ≠ (s.data.getD (s.data.length - 1) default).name := by
            intro he
            have := posInv_name_inj h (by omega) (by omega) he
            omega
          rw [hm2e, dictLookup_erase_ne hne0, dictLookup_insert_ne hneL]
          exact h.1 k (by omega)
      have hlen2 : m2.length = d2.length := by
        have hpresentL : (dictLookup s.indices
            ((s.data.getD (s.data.length - 1) default).name)).isSome := by
          rw [h.1 _ (by omega)]
          rfl
        have hpresent0 : (dictLookup (dictInsert s.indices
            ((s.data.getD (s.data.length - 1) default).name) 0)
            ((s.data.getD 0 default).name)).isSome := by
          rw [dictLookup_insert_ne hname_ne, h.1 0 hpos]
          rfl
        rw [hm2e]
        have he1 := dictErase_length hpresent0
        have he2 := dictInsert_length_of_present hpresentL 0
        rw [hd2len]
        rw [he2, h.2] at he1
        omega
      obtain ⟨hp1, hp2, _⟩ := siftDown_pw ⟨s.comparisons, d2, m2⟩ 0 hpw2
      exact ⟨hp1, by rw [hp2, siftDown_data_length]; exact hlen2⟩

theorem removeIdx_eq_of_lookup {s : HState} {pname : String} {r : Nat}
    (hl : dictLookup s.indices pname = some r) (hne : s.data ≠ []) :
    removeIdx s pname =
      (if (s.data.getD (s.data.length - 1) default).name ≠ pname then
        some (siftDown true (siftUp true
          ⟨s.comparisons,
           (s.data.set r (s.data.getD (s.data.length - 1) default)).dropLast,
           dictInsert (dictErase s.indices pname)
             ((s.data.getD (s.data.length - 1) default).name) r⟩ r) r)
      else some { s with indices := dictErase s.indices pname,
                          data := s.data.dropLast }) := by
  unfold removeIdx
  rw [hl]
  have hdel : dictDelete s.indices pname
      = some (dictErase s.indices pname) := by
    unfold dictDelete
    rw [if_pos (by rw [hl]; rfl)]
  rw [hdel, getLast?_eq_getD hne]

/-- Full characterization of a successful indexed `remove`: the result
exists, size drops by one, both invariants hold afterwards, and the data
afterwards is the old data minus exactly the looked-up element. -/
theorem removeIdx_spec {s : HState} {pname : String} (h : posInv s)
    (hheap : heapInv s.data) {r : Nat}
    (hl : dictLookup s.indices pname = some r) :
    ∃ s', removeIdx s pname = some s' ∧
      s'.data.length + 1 = s.data.length ∧
      heapInv s'.data ∧ posInv s' ∧
      ((s.data.getD r default) :: s'.data).Perm s.data := by
  obtain ⟨hr, hnr⟩ := posInv_lookup_complete h hl
  have hne : s.data ≠ [] := by
    intro hnil
    rw [hnil] at hr
    simp at hr
  have hn : 0 < s.data.length := by omega
  rw [removeIdx_eq_of_lookup hl hne]
  by_cases hcase : (s.data.getD (s.data.length - 1) default).name ≠ pname
  · -- the removed slot is not the physical last slot
    have hrlt : r < s.data.length - 1 := by
      have hner : r ≠ s.data.length - 1 := by
        intro he
        exact hcase (he ▸ hnr)
      omega
    rw [if_pos hcase]
    set lastp := s.data.getD (s.data.length - 1) default with hlastp
    set d2 : List Patient := (s.data.set r lastp).dropLast with hd2
    set m2 : List (String × Nat) :=
      dictInsert (dictErase s.indices pname) lastp.name r with hm2
    have hd2len : d2.length = s.data.length - 1 := by
      rw [hd2]
      simp
    have hlast_ne : ∀ k, k < s.data.length - 1 →
        (s.data.getD k default).name ≠ lastp.name := by
      intro k hk he
      have := posInv_name_inj h (by omega) (by omega) he
      omega
    have hpname_ne : ∀ k, k < s.data.length → k ≠ r →
        (s.data.getD k default).name ≠ pname := by
      intro k hk hkr he
      exact hkr (posInv_name_inj h hk hr (he.trans hnr.symm))
    refine ⟨_, rfl, ?_, ?_, ?_, ?_⟩
    · rw [siftDown_data_length, siftUp_data_length]
      show d2.length + 1 = s.data.length
      omega
    · exact remove_restructure_heapInv true s.comparisons m2 s.data r lastp
        hheap (by omega) rfl
    · -- position invariant
      have hpw2 : pw ⟨s.comparisons, d2, m2⟩ := by
        intro k hk
        show dictLookup m2 ((d2.getD k default).name) = some k
        have hk' : k < s.data.length - 1 := by
          have he : (⟨s.comparisons, d2, m2⟩ : HState).data.length
              = d2.length := rfl
          rw [he, hd2len] at hk
          exact hk
        by_cases hkr : k = r
        · have hgd : d2.getD k default = lastp := by
            rw [hd2, hkr, getD_dropLast (by simp; omega), getD_set_self hr]
          rw [hgd, hm2, dictLookup_insert_self, hkr]
        · have hgd : d2.getD k default = s.data.getD k default := by
            rw [hd2, getD_dropLast (by simp; omega), getD_set_other hkr]
          rw [hgd, hm2, dictLookup_insert_ne (hlast_ne k hk'),
            dictLookup_erase_ne (hpname_ne k (by omega) hkr)]
          exact h.1 k (by omega)
      have hm2len : m2.length = d2.length := by
        have hpresentP : (dictLookup s.indices pname).isSome := by
          rw [hl]
          rfl
        have hlookL : dictLookup s.indices lastp.name
            = some (s.data.length - 1) := h.1 _ (by omega)
        have hpresentL : (dictLookup (dictErase s.indices pname)
            lastp.name).isSome := by
          rw [dictLookup_erase_ne hcase, hlookL]
          rfl
        rw [hm2, dictInsert_length_of_present hpresentL r]
        have he1 := dictErase_length hpresentP
        have hIL := h.2
        rw [hd2len]
        omega
      have hrd2 : r < (⟨s.comparisons, d2, m2⟩ : HState).data.length := by
        show r < d2.length
        omega
      obtain ⟨hu1, hu2, _⟩ := siftUp_pw ⟨s.comparisons, d2, m2⟩ r hrd2 hpw2
      obtain ⟨hdn1, hdn2, _⟩ :=
        siftDown_pw (siftUp true ⟨s.comparisons, d2, m2⟩ r) r hu1
      refine ⟨hdn1, ?_⟩
      rw [hdn2, hu2, siftDown_data_length, siftUp_data_length]
      exact hm2len
    · -- permutation with the removed element restored
      have hrd2 : r < (⟨s.comparisons, d2, m2⟩ : HState).data.length := by
        show r < d2.length
        omega
      have hperm1 : (siftDown true
          (siftUp true ⟨s.comparisons, d2, m2⟩ r) r).data.Perm d2 :=
        (siftDown_perm _ _ _).trans
          (siftUp_perm true ⟨s.comparisons, d2, m2⟩ r hrd2)
      refine (hperm1.cons (s.data.getD r default)).trans ?_
      have hEne : s.data.set r lastp ≠ [] := by
        intro he
        have h9 := congrArg List.length he
        rw [List.length_set] at h9
        simp only [List.length_nil] at h9
        omega
      have hEgd : (s.data.set r lastp).getD
          ((s.data.set r lastp).length - 1) default = lastp := by
        rw [List.length_set, getD_set_other (by omega)]
      have hE : d2 ++ [lastp] = s.data.set r lastp := by
        have h6 := List.dropLast_append_getLast hEne
        have h5 : (s.data.set r lastp).getLast hEne = lastp := by
          have h7 := List.getLast?_eq_getLast _ hEne
          rw [getLast?_eq_getD hEne, hEgd] at h7
          injection h7 with h7
          exact h7.symm
        rw [h5] at h6
        exact h6
      have hchain1 : ((s.data.getD r default) :: (s.data.set r lastp)).Perm
          (lastp :: s.data) := getD_cons_set_perm s.data r lastp hr
      have hchain2 : (s.data.set r lastp).Perm (lastp :: d2) := by
        rw [← hE]
        have hmid : (d2 ++ [lastp]).Perm (lastp :: (d2 ++ [])) :=
          List.perm_middle
        rw [List.append_nil] at hmid
        exact hmid
      have hbig : (lastp :: ((s.data.getD r default) :: d2)).Perm
          (lastp :: s.data) := by
        have c1 : (lastp :: (s.data.getD r default) :: d2).Perm
            ((s.data.getD r default) :: lastp :: d2) :=
          List.Perm.swap _ _ _
        refine c1.trans ?_
        refine ((hchain2.symm.cons _).trans hchain1)
      exact hbig.cons_inv
  · rw [if_neg hcase]
    push_neg at hcase
    have hreq : r = s.data.length - 1 :=
      posInv_name_inj h hr (by omega) (hnr.trans hcase.symm)
    refine ⟨_, rfl, ?_, ?_, ?_, ?_⟩
    · show s.data.dropLast.length + 1 = s.data.length
      simp only [List.length_dropLast]
      omega
    · exact heapInv_dropLast hheap
    · constructor
      · intro k hk
        show dictLookup (dictErase s.indices pname)
          ((s.data.dropLast.getD k default).name) = some k
        have hk' : k < s.data.length - 1 := by simpa using hk
        rw [getD_dropLast hk']
        have hne2 : (s.data.getD k default).name ≠ pname := by
          intro he
          have := posInv_name_inj h (by omega) hr (he.trans hnr.symm)
          omega
        rw [dictLookup_erase_ne hne2]
        exact h.1 k (by omega)
      · show (dictErase s.indices pname).length = s.data.dropLast.length
        have he1 := dictErase_length
          (show (dictLookup s.indices pname).isSome by rw [hl]; rfl)
        have hIL := h.2
        simp only [List.length_dropLast]
        omega
    · rw [hreq]
      show ((s.data.getD (s.data.length - 1) default)
          :: s.data.dropLast).Perm s.data
      have hgl : s.data.getLast hne
          = s.data.getD (s.data.length - 1) default := by
        have h1 := List.getLast?_eq_getLast _ hne
        rw [getLast?_eq_getD hne] at h1
        injection h1 with h1
        exact h1.symm
      rw [← hgl]
      have hmid : (s.data.dropLast ++ [s.data.getLast hne]).Perm
          (s.data.getLast hne :: (s.data.dropLast ++ [])) := List.perm_middle
      rw [List.append_nil] at hmid
      have h8 := hmid.symm
      rw [List.dropLast_append_getLast hne] at h8
      exact h8

/-! ### Failure conditions and the drain specification -/

theorem dequeueBase_none_iff {b : Bool} {s : HState} :
    dequeueBase b s = none ↔ s.data = [] := by
  constructor
  · intro h
    unfold dequeueBase at h
    split at h
    · rename_i hh
      exact List.head?_eq_none_iff.mp hh
    · split at h <;> exact absurd h (by simp)
  · intro h
    unfold dequeueBase
    rw [h]
    rfl

theorem dequeueIdx_none_iff {s : HState} (h : posInv s) :
    dequeueIdx s = none ↔ s.data = [] := by
  constructor
  · intro hd
    by_contra hne
    obtain ⟨m2, hpre, _⟩ := dequeuePre_of_posInv h hne
    unfold dequeueIdx at hd
    rw [hpre] at hd
    have hb : dequeueBase true { s with indices := m2 } = none := hd
    have h2 := dequeueBase_none_iff.mp hb
    exact hne h2
  · intro hd
    unfold dequeueIdx dequeuePre
    rw [hd]
    split <;> rfl

theorem removeIdx_none_iff {s : HState} (h : posInv s) (pname : String) :
    removeIdx s pname = none ↔ dictLookup s.indices pname = none := by
  constructor
  · intro hd
    cases hl : dictLookup s.indices pname with
    | none => rfl
    | some r =>
      obtain ⟨hr, _⟩ := posInv_lookup_complete h hl
      have hne : s.data ≠ [] := by
        intro hnil
        rw [hnil] at hr
        simp at hr
      rw [removeIdx_eq_of_lookup hl hne] at hd
      split at hd <;> exact absurd hd (by simp)
  · intro hl
    unfold removeIdx
    rw [hl]

theorem drain_of_none {b : Bool} {s : HState} (h : dequeueOp b s = none) :
    drain b s = [] := by
  rw [drain]
  split <;> rename_i heq
  · rfl
  · rw [h] at heq
    exact absurd heq (by simp)

theorem drain_of_some {b : Bool} {s s' : HState} {p : Patient}
    (h : dequeueOp b s = some (p, s')) :
    drain b s = p :: drain b s' := by
  rw [drain]
  split <;> rename_i heq
  · rw [h] at heq
    exact absurd heq (by simp)
  · rw [h] at heq
    injection heq with heq2
    injection heq2 with h1 h2
    rw [← h1, ← h2]

/-- In a valid heap the root dominates every element. -/
theorem heapInv_root_max {d : List Patient} (h : heapInv d) :
    ∀ j, j < d.length → prio d j ≤ prio d 0 := by
  intro j
  induction j using Nat.strong_induction_on with
  | _ j ih =>
    intro hj
    by_cases hj0 : j = 0
    · rw [hj0]
    · have hc := isChild_parent hj0
      have hp := parentIndex_lt hj0
      exact le_trans (h j hj (parentIndex j) (by omega) hc)
        (ih _ hp (by omega))

theorem dequeueOp_heapInv {b : Bool} {s s' : HState} {p : Patient}
    (h : heapInv s.data) (hd : dequeueOp b s = some (p, s')) :
    heapInv s'.data := by
  unfold dequeueOp at hd
  split at hd
  · exact dequeueIdx_heapInv h hd
  · exact dequeueBase_heapInv h hd

theorem dequeueOp_root {b : Bool} {s s' : HState} {p : Patient}
    (hd : dequeueOp b s = some (p, s')) : p = s.data.getD 0 default := by
  unfold dequeueOp at hd
  split at hd
  · obtain ⟨s1, h1, h2⟩ := dequeueIdx_some_pre hd
    have hdata := (dequeuePre_some h1).1
    have := (dequeueBase_some h2).2.1
    rw [hdata] at this
    exact this
  · exact (dequeueBase_some hd).2.1

theorem mem_prio_le_root {d : List Patient} (h : heapInv d) {q : Patient}
    (hq : q ∈ d) : q.priority ≤ (d.getD 0 default).priority := by
  obtain ⟨j, hj, hjq⟩ := List.getElem_of_mem hq
  have h1 := heapInv_root_max h j hj
  unfold prio at h1
  rw [List.getD_eq_getElem?_getD, List.getElem?_eq_getElem hj] at h1
  simpa [hjq] using h1

/-- The drain of a valid queue state emits exactly its elements, in
strictly descending priority order (given pairwise-distinct priorities).
The `posInv` hypothesis is only needed for the indexed variant, whose
dequeue consults the dictionary. -/
theorem drain_spec (b : Bool) :
    ∀ (n : Nat) (s : HState), s.data.length ≤ n → heapInv s.data →
    (b = true → posInv s) →
    (s.data.map Patient.priority).Nodup →
    (drain b s).Perm s.data ∧
    (drain b s).Pairwise (fun a c => c.priority < a.priority) := by
  intro n
  induction n with
  | zero =>
    intro s hlen hheap hpos hdist
    have hnil : s.data = [] := by
      cases hd : s.data with
      | nil => rfl
      | cons x t =>
        rw [hd] at hlen
        simp at hlen
    have hnone : dequeueOp b s = none := by
      unfold dequeueOp
      split
      · rename_i hb
        exact (dequeueIdx_none_iff (hpos hb)).mpr hnil
      · exact dequeueBase_none_iff.mpr hnil
    rw [drain_of_none hnone, hnil]
    exact ⟨List.Perm.refl _, List.Pairwise.nil⟩
  | succ n ih =>
    intro s hlen hheap hpos hdist
    match hdq : dequeueOp b s with
    | none =>
      have hnil : s.data = [] := by
        unfold dequeueOp at hdq
        split at hdq
        · rename_i hb
          exact (dequeueIdx_none_iff (hpos hb)).mp hdq
        · exact dequeueBase_none_iff.mp hdq
      rw [drain_of_none hdq, hnil]
      exact ⟨List.Perm.refl _, List.Pairwise.nil⟩
    | some (p, s') =>
      rw [drain_of_some hdq]
      have hperm : s.data.Perm (p :: s'.data) := dequeueOp_perm hdq
      have hheap' : heapInv s'.data := dequeueOp_heapInv hheap hdq
      have hpos' : b = true → posInv s' := by
        intro hb
        subst hb
        unfold dequeueOp at hdq
        rw [if_pos rfl] at hdq
        exact dequeueIdx_posInv (hpos rfl) hdq
      have hdist2 : ((p :: s'.data).map Patient.priority).Nodup :=
        (hperm.map Patient.priority).nodup_iff.mp hdist
      have hdist' : (s'.data.map Patient.priority).Nodup := by
        rw [List.map_cons] at hdist2
        exact hdist2.of_cons
      have hlen' : s'.data.length ≤ n := by
        have := dequeueOp_some_length hdq
        have h2 := hperm.length_eq
        simp only [List.length_cons] at h2
        omega
      obtain ⟨ihp, ihs⟩ := ih s' hlen' hheap' hpos' hdist'
      constructor
      · exact (ihp.cons p).trans hperm.symm
      · refine List.Pairwise.cons ?_ ihs
        intro q hq
        have hqmem : q ∈ s'.data := ihp.mem_iff.mp hq
        have hqs : q ∈ s.data := hperm.mem_iff.mpr (by simp [hqmem])
        have hle : q.priority ≤ (s.data.getD 0 default).priority :=
          mem_prio_le_root hheap hqs
        have hp0 : p = s.data.getD 0 default := dequeueOp_root hdq
        have hne : q.priority ≠ p.priority := by
          intro he
          rw [List.map_cons] at hdist2
          have hmem2 : q.priority ∈ s'.data.map Patient.priority :=
            List.mem_map_of_mem Patient.priority hqmem
          rw [he] at hmem2
          exact (List.nodup_cons.mp hdist2).1 hmem2
        rw [hp0]
        exact lt_of_le_of_ne hle (by rw [← hp0]; exact hne)

/-! ### Construction establishes the position invariant (unique keys) -/

theorem getD_mem {l : List Patient} {n : Nat} (h : n < l.length) :
    l.getD n default ∈ l := by
  rw [List.getD_eq_getElem?_getD, List.getElem?_eq_getElem h]
  show l[n] ∈ l
  exact List.getElem_mem h

theorem seed_fold_spec (l : List Patient) :
    ∀ (start : Nat) (m0 : List (String × Nat)),
    ((l.map Patient.name).Nodup) →
    (∀ p ∈ l, dictLookup m0 p.name = none) →
    (∀ i, i < l.length →
      dictLookup ((l.enumFrom start).foldl
        (fun m ip => dictInsert m ip.2.name ip.1) m0)
        ((l.getD i default).name) = some (start + i)) ∧
    (∀ n, n ∉ l.map Patient.name →
      dictLookup ((l.enumFrom start).foldl
        (fun m ip => dictInsert m ip.2.name ip.1) m0) n = dictLookup m0 n) ∧
    ((l.enumFrom start).foldl (fun m ip => dictInsert m ip.2.name ip.1)
      m0).length = m0.length + l.length := by
  induction l with
  | nil =>
    intro start m0 _ _
    refine ⟨?_, ?_, rfl⟩
    · intro i hi
      simp at hi
    · intro n _
      rfl
  | cons p rest ih =>
    intro start m0 hnodup hfresh
    have hpn : p.name ∉ rest.map Patient.name := by
      rw [List.map_cons] at hnodup
      exact (List.nodup_cons.mp hnodup).1
    have hnodup' : (rest.map Patient.name).Nodup := by
      rw [List.map_cons] at hnodup
      exact (List.nodup_cons.mp hnodup).2
    have hfresh' : ∀ q ∈ rest, dictLookup (dictInsert m0 p.name start) q.name
        = none := by
      intro q hq
      have hne : q.name ≠ p.name := by
        intro he
        exact hpn (he ▸ List.mem_map_of_mem Patient.name hq)
      rw [dictLookup_insert_ne hne]
      exact hfresh q (List.mem_cons_of_mem p hq)
    have hstep : ((p :: rest).enumFrom start).foldl
        (fun m ip => dictInsert m ip.2.name ip.1) m0
      = (rest.enumFrom (start + 1)).foldl
        (fun m ip => dictInsert m ip.2.name ip.1)
        (dictInsert m0 p.name start) := rfl
    obtain ⟨ih1, ih2, ih3⟩ := ih (start + 1) (dictInsert m0 p.name start)
      hnodup' hfresh'
    refine ⟨?_, ?_, ?_⟩
    · intro i hi
      rw [hstep]
      cases i with
      | zero =>
        have hgd : ((p :: rest).getD 0 default) = p := rfl
        rw [hgd, ih2 p.name hpn, dictLookup_insert_self]
        rfl
      | succ j =>
        have hj : j < rest.length := by simpa using hi
        have hgd : ((p :: rest).getD (j + 1) default) = rest.getD j default :=
          rfl
        rw [hgd, ih1 j hj]
        congr 1
        omega
    · intro n hn
      rw [hstep]
      have hn1 : n ∉ rest.map Patient.name := by
        intro hmem
        exact hn (by rw [List.map_cons]; exact List.mem_cons_of_mem _ hmem)
      have hn2 : n ≠ p.name := by
        intro he
        exact hn (by rw [List.map_cons, he]; exact List.mem_cons_self _ _)
      rw [ih2 n hn1, dictLookup_insert_ne hn2]
    · rw [hstep, ih3,
        dictInsert_length_of_absent (hfresh p (List.mem_cons_self p rest)) start]
      simp only [List.length_cons]
      omega

theorem seedIndices_spec {l : List Patient}
    (h : (l.map Patient.name).Nodup) :
    (∀ i, i < l.length →
      dictLookup (seedIndices l) ((l.getD i default).name) = some i) ∧
    (seedIndices l).length = l.length := by
  obtain ⟨h1, _, h3⟩ := seed_fold_spec l 0 [] h (fun p _ => rfl)
  refine ⟨?_, ?_⟩
  · intro i hi
    have := h1 i hi
    simpa using this
  · simpa using h3

theorem siftDownAll_pw (n : Nat) :
    ∀ (s : HState), pw s →
    pw (siftDownAll true s n) ∧
    (siftDownAll true s n).indices.length = s.indices.length := by
  induction n with
  | zero =>
    intro s hpw
    exact ⟨hpw, rfl⟩
  | succ n ih =>
    intro s hpw
    rw [siftDownAll]
    obtain ⟨h1, h2, _⟩ := siftDown_pw s n hpw
    obtain ⟨h3, h4⟩ := ih _ h1
    exact ⟨h3, h4.trans h2⟩

/-- Indexed `enqueue` with a key already present in the dictionary but not
borne by any stored element (the constructor-seeding situation). -/
theorem enqueue_pw_present {s : HState} {p : Patient} (hpw : pw s)
    (hpres : (dictLookup s.indices p.name).isSome)
    (hfresh : ∀ k, k < s.data.length →
      (s.data.getD k default).name ≠ p.name) :
    pw (enqueue true s p) ∧
    (enqueue true s p).indices.length = s.indices.length ∧
    (∀ n, (dictLookup (enqueue true s p).indices n).isSome
        = (dictLookup s.indices n).isSome) := by
  rw [enqueue_true_def]
  set s1 : HState := ⟨s.comparisons, s.data ++ [p],
    dictInsert s.indices p.name s.data.length⟩ with hs1
  have hpw1 : pw s1 := by
    intro k hk
    show dictLookup (dictInsert s.indices p.name s.data.length)
      (((s.data ++ [p]).getD k default).name) = some k
    have hk' : k < s.data.length + 1 := by
      rw [hs1] at hk
      simpa using hk
    by_cases hkl : k = s.data.length
    · rw [hkl, getD_append_len, dictLookup_insert_self]
    · have hklt : k < s.data.length := by omega
      rw [getD_append_lt hklt, dictLookup_insert_ne (hfresh k hklt)]
      exact hpw k hklt
  have hidx : s.data.length < s1.data.length := by
    show s.data.length < (s.data ++ [p]).length
    simp
  obtain ⟨h1, h2, h3⟩ := siftUp_pw s1 s.data.length hidx hpw1
  refine ⟨h1, ?_, ?_⟩
  · rw [h2]
    show (dictInsert s.indices p.name s.data.length).length = s.indices.length
    exact dictInsert_length_of_present hpres _
  · intro n
    rw [h3 n]
    show (dictLookup (dictInsert s.indices p.name s.data.length) n).isSome = _
    exact dictLookup_isSome_insert hpres n

theorem getD_eq_getElem {l : List Patient} {n : Nat} (h : n < l.length) :
    l.getD n default = l[n] := by
  rw [List.getD_eq_getElem?_getD, List.getElem?_eq_getElem h]
  rfl

theorem heapifySlow_pw_aux :
    ∀ (l2 : List Patient) (s : HState) (pre : List Patient),
    pw s → s.data.Perm pre →
    (∀ q ∈ l2, (dictLookup s.indices q.name).isSome) →
    (((pre ++ l2).map Patient.name).Nodup) →
    pw (heapifySlow true s l2) ∧
    (heapifySlow true s l2).indices.length = s.indices.length := by
  intro l2
  induction l2 with
  | nil =>
    intro s pre hpw _ _ _
    exact ⟨hpw, rfl⟩
  | cons p rest ih =>
    intro s pre hpw hperm hpres hnodup
    rw [heapifySlow, List.foldl_cons]
    have hnd := hnodup
    rw [List.map_append, List.nodup_append] at hnd
    have hfresh : ∀ k, k < s.data.length →
        (s.data.getD k default).name ≠ p.name := by
      intro k hk he
      have hmem : s.data.getD k default ∈ pre := hperm.mem_iff.mp (getD_mem hk)
      have hmemn : (s.data.getD k default).name ∈ pre.map Patient.name :=
        List.mem_map_of_mem Patient.name hmem
      refine hnd.2.2 hmemn ?_
      rw [he, List.map_cons]
      exact List.mem_cons_self _ _
    obtain ⟨he1, he2, he3⟩ := enqueue_pw_present hpw
      (hpres p (List.mem_cons_self p rest)) hfresh
    have hperm2 : (enqueue true s p).data.Perm (pre ++ [p]) :=
      (enqueue_perm true s p).trans (hperm.append_right [p])
    have hpres2 : ∀ q ∈ rest,
        (dictLookup (enqueue true s p).indices q.name).isSome := by
      intro q hq
      rw [he3]
      exact hpres q (List.mem_cons_of_mem p hq)
    have hnodup2 : (((pre ++ [p]) ++ rest).map Patient.name).Nodup := by
      rw [List.append_assoc, List.singleton_append]
      exact hnodup
    obtain ⟨hh1, hh2⟩ := ih (enqueue true s p) (pre ++ [p]) he1 hperm2
      hpres2 hnodup2
    exact ⟨hh1, hh2.trans he2⟩

/-- Construction of the indexed queue with pairwise-distinct names
establishes the position invariant, in both modes. -/
theorem initIndexed_posInv {l : List Patient}
    (hnodup : (l.map Patient.name).Nodup) (fast : Bool) {s : HState}
    (h : initIndexed (some l) fast = some s) : posInv s := by
  obtain ⟨hseed1, hseed2⟩ := seedIndices_spec hnodup
  unfold initIndexed at h
  simp only [Option.some_inj] at h
  rw [← h]
  split
  · -- linear heapify
    have hpw0 : pw (⟨0, l, seedIndices l⟩ : HState) := by
      intro k hk
      exact hseed1 k hk
    obtain ⟨hp1, hp2⟩ := siftDownAll_pw l.length ⟨0, l, seedIndices l⟩ hpw0
    refine ⟨hp1, ?_⟩
    show (siftDownAll true ⟨0, l, seedIndices l⟩ l.length).indices.length
      = (siftDownAll true ⟨0, l, seedIndices l⟩ l.length).data.length
    rw [hp2, siftDownAll_data_length]
    exact hseed2
  · -- incremental heapify
    have hpres : ∀ q ∈ l, (dictLookup (seedIndices l) q.name).isSome := by
      intro q hq
      obtain ⟨i, hi, hqi⟩ := List.getElem_of_mem hq
      have h2 := hseed1 i hi
      rw [getD_eq_getElem hi, hqi] at h2
      rw [h2]
      rfl
    obtain ⟨hh1, hh2⟩ := heapifySlow_pw_aux l ⟨0, [], seedIndices l⟩ []
      (fun k hk => absurd hk (Nat.not_lt_zero k)) (List.Perm.refl _)
      hpres (by simpa using hnodup)
    refine ⟨hh1, ?_⟩
    have hdl : (heapifySlow true ⟨0, [], seedIndices l⟩ l).data.length
        = l.length := by
      have h3 := (heapifySlow_perm true l ⟨0, [], seedIndices l⟩).length_eq
      simpa using h3
    rw [hh2, hdl]
    exact hseed2

/-! ### Kernel-computable mirrors

The sift procedures (and hence everything built on them) are defined by
well-founded recursion, which the kernel does not reduce on closed terms.
For evaluating the model at concrete inputs we provide structurally
recursive mirrors, each proved equal to its specification function; the
fuel bounds (`index + 1` for sift-up, the array length for sift-down) always
cover the measure, so the equalities are unconditional. -/

def siftUpF : Nat → Bool → HState → Nat → HState
  | 0, _, s, _ => s
  | fuel + 1, b, s, index =>
    if index = 0 then s
    else if prio s.data (parentIndex index) < prio s.data index then
      siftUpF fuel b (doSwap b { s with comparisons := s.comparisons + 1 }
        index (parentIndex index)) (parentIndex index)
    else { s with comparisons := s.comparisons + 1 }

theorem siftUpF_eq : ∀ (fuel : Nat) (b : Bool) (s : HState) (index : Nat),
    index < fuel → siftUpF fuel b s index = siftUp b s index := by
  intro fuel
  induction fuel with
  | zero =>
    intro b s index h
    exact absurd h (by omega)
  | succ n ih =>
    intro b s index h
    show (if index = 0 then s
      else if prio s.data (parentIndex index) < prio s.data index then
        siftUpF n b (doSwap b { s with comparisons := s.comparisons + 1 }
          index (parentIndex index)) (parentIndex index)
      else { s with comparisons := s.comparisons + 1 }) = siftUp b s index
    by_cases h0 : index = 0
    · rw [if_pos h0, h0, siftUp_zero]
    · rw [if_neg h0]
      by_cases hlt : prio s.data (parentIndex index) < prio s.data index
      · rw [if_pos hlt, siftUp_of_swap h0 hlt, ih]
        have := parentIndex_lt h0
        omega
      · rw [if_neg hlt, siftUp_of_no_swap h0 hlt]

def siftDownF : Nat → Bool → HState → Nat → HState
  | 0, _, s, _ => s
  | fuel + 1, b, s, index =>
    match maxChildPriorityIndex s.data s.comparisons index with
    | (none, comps) => { s with comparisons := comps }
    | (some ci, comps) =>
      if prio s.data ci > prio s.data index then
        siftDownF fuel b (doSwap b { s with comparisons := comps + 1 }
          index ci) ci
      else { s with comparisons := comps + 1 }

theorem siftDown_of_out {b : Bool} {s : HState} {index : Nat}
    (h : s.data.length ≤ index) : siftDown b s index = s := by
  have hmc : maxChildPriorityIndex s.data s.comparisons index
      = (none, s.comparisons) := by
    unfold maxChildPriorityIndex
    rw [if_pos (by omega)]
  rw [siftDown_of_none hmc]

theorem siftDownF_eq : ∀ (fuel : Nat) (b : Bool) (s : HState) (index : Nat),
    s.data.length ≤ index + fuel → siftDownF fuel b s index = siftDown b s index := by
  intro fuel
  induction fuel with
  | zero =>
    intro b s index h
    rw [siftDown_of_out (by omega)]
    rfl
  | succ n ih =>
    intro b s index h
    show (match maxChildPriorityIndex s.data s.comparisons index with
      | (none, comps) => { s with comparisons := comps }
      | (some ci, comps) =>
        if prio s.data ci > prio s.data index then
          siftDownF n b (doSwap b { s with comparisons := comps + 1 }
            index ci) ci
        else { s with comparisons := comps + 1 }) = siftDown b s index
    match hmc : maxChildPriorityIndex s.data s.comparisons index with
    | (none, comps) => rw [siftDown_of_none hmc]
    | (some ci, comps) =>
      show (if prio s.data ci > prio s.data index then
          siftDownF n b (doSwap b { s with comparisons := comps + 1 }
            index ci) ci
        else { s with comparisons := comps + 1 }) = siftDown b s index
      have hb := maxChild_bounds hmc
      by_cases hlt : prio s.data ci > prio s.data index
      · rw [if_pos hlt, siftDown_of_some_lt hmc hlt, ih]
        rw [doSwap_data, listSwap_length]
        dsimp only
        omega
      · rw [if_neg hlt, siftDown_of_some_ge hmc hlt]

def enqueueF (b : Bool) (s : HState) (p : Patient) : HState :=
  let s0 := if b then
    { s with indices := dictInsert s.indices p.name s.data.length } else s
  siftUpF (s.data.length + 1) b { s0 with data := s0.data ++ [p] }
    s.data.length

theorem enqueueF_eq (b : Bool) (s : HState) (p : Patient) :
    enqueueF b s p = enqueue b s p := by
  unfold enqueueF enqueue
  rw [siftUpF_eq]
  omega

def dequeueBaseF (b : Bool) (s : HState) : Option (Patient × HState) :=
  match s.data.head? with
  | none => none
  | some first =>
    if s.data.length ≠ 1 then
      let lastp := (s.data.getLast?).getD default
      some (first, siftDownF s.data.length b
        { s with data := (s.data.dropLast).set 0 lastp } 0)
    else some (first, { s with data := s.data.dropLast })

theorem dequeueBaseF_eq (b : Bool) (s : HState) :
    dequeueBaseF b s = dequeueBase b s := by
  unfold dequeueBaseF dequeueBase
  cases hd : s.data.head? with
  | none => rfl
  | some first =>
    dsimp only
    by_cases h1 : s.data.length ≠ 1
    · rw [if_pos h1, if_pos h1, siftDownF_eq]
      simp only [List.length_set, List.length_dropLast]
      omega
    · rw [if_neg h1, if_neg h1]

def dequeueIdxF (s : HState) : Option (Patient × HState) :=
  (dequeuePre s).bind (dequeueBaseF true)

theorem dequeueIdxF_eq (s : HState) : dequeueIdxF s = dequeueIdx s := by
  unfold dequeueIdxF dequeueIdx
  cases dequeuePre s with
  | none => rfl
  | some s1 =>
    show dequeueBaseF true s1 = dequeueBase true s1
    rw [dequeueBaseF_eq]

def removeIdxF (s : HState) (pname : String) : Option HState :=
  match dictLookup s.indices pname with
  | none => none
  | some removedIndex =>
    match dictDelete s.indices pname with
    | none => none
    | some m =>
      match s.data.getLast? with
      | none => none
      | some lastItem =>
        if lastItem.name ≠ pname then
          let d2 := (s.data.set removedIndex lastItem).dropLast
          let m2 := dictInsert m lastItem.name removedIndex
          let s2 := siftUpF (removedIndex + 1) true
            ⟨s.comparisons, d2, m2⟩ removedIndex
          some (siftDownF (s.data.length + removedIndex) true s2 removedIndex)
        else some { s with indices := m, data := s.data.dropLast }

theorem removeIdxF_eq (s : HState) (pname : String) :
    removeIdxF s pname = removeIdx s pname := by
  unfold removeIdxF removeIdx
  cases hl : dictLookup s.indices pname with
  | none => rfl
  | some r =>
    cases hdel : dictDelete s.indices pname with
    | none => rfl
    | some m =>
      cases hlast : s.data.getLast? with
      | none => rfl
      | some lastItem =>
        dsimp only
        by_cases hn : lastItem.name ≠ pname
        · rw [if_pos hn, if_pos hn, siftUpF_eq _ _ _ _ (by omega),
            siftDownF_eq]
          rw [siftUp_data_length]
          show (s.data.set r lastItem).dropLast.length
              ≤ r + (s.data.length + r)
          simp only [List.length_dropLast, List.length_set]
          omega
        · rw [if_neg hn, if_neg hn]

def siftDownAllF (b : Bool) (s : HState) : Nat → HState
  | 0 => s
  | n + 1 => siftDownAllF b (siftDownF s.data.length b s n) n

theorem siftDownAllF_eq (b : Bool) :
    ∀ (n : Nat) (s : HState), siftDownAllF b s n = siftDownAll b s n := by
  intro n
  induction n with
  | zero =>
    intro s
    rfl
  | succ n ih =>
    intro s
    show siftDownAllF b (siftDownF s.data.length b s n) n = _
    rw [siftDownF_eq _ _ _ _ (by omega), ih, siftDownAll]

def heapifySlowF (b : Bool) (s : HState) (l : List Patient) : HState :=
  l.foldl (fun st p => enqueueF b st p) s

theorem heapifySlowF_eq (b : Bool) :
    ∀ (l : List Patient) (s : HState), heapifySlowF b s l = heapifySlow b s l := by
  intro l
  induction l with
  | nil =>
    intro s
    rfl
  | cons p rest ih =>
    intro s
    show heapifySlowF b (enqueueF b s p) rest = _
    rw [enqueueF_eq, ih]
    rfl

def heapifyFastF (b : Bool) (s : HState) (l : List Patient) : HState :=
  let s1 := { s with data := s.data ++ l }
  siftDownAllF b s1 s1.data.length

theorem heapifyFastF_eq (b : Bool) (s : HState) (l : List Patient) :
    heapifyFastF b s l = heapifyFast b s l := by
  unfold heapifyFastF heapifyFast
  rw [siftDownAllF_eq]

def initBaseF (startData : Option (List Patient)) (fast : Bool) : HState :=
  let l := startData.getD []
  let s0 : HState := ⟨0, [], []⟩
  if fast then heapifyFastF false s0 l else heapifySlowF false s0 l

theorem initBaseF_eq (startData : Option (List Patient)) (fast : Bool) :
    initBaseF startData fast = initBase startData fast := by
  unfold initBaseF initBase
  split
  · rw [heapifyFastF_eq]
  · rw [heapifySlowF_eq]

def initIndexedF (startData : Option (List Patient)) (fast : Bool) :
    Option HState :=
  match startData with
  | none => none
  | some l =>
    let s0 : HState := ⟨0, [], seedIndices l⟩
    some (if fast then heapifyFastF true s0 l else heapifySlowF true s0 l)

theorem initIndexedF_eq (startData : Option (List Patient)) (fast : Bool) :
    initIndexedF startData fast = initIndexed startData fast := by
  unfold initIndexedF initIndexed
  cases startData with
  | none => rfl
  | some l =>
    simp only [Option.some_inj]
    split
    · rw [heapifyFastF_eq]
    · rw [heapifySlowF_eq]

def dequeueOpF (b : Bool) (s : HState) : Option (Patient × HState) :=
  if b then dequeueIdxF s else dequeueBaseF false s

theorem dequeueOpF_eq (b : Bool) (s : HState) :
    dequeueOpF b s = dequeueOp b s := by
  unfold dequeueOpF dequeueOp
  split
  · rw [dequeueIdxF_eq]
  · rw [dequeueBaseF_eq]

def drainF : Nat → Bool → HState → List Patient
  | 0, _, _ => []
  | fuel + 1, b, s =>
    match dequeueOpF b s with
    | none => []
    | some (p, s') => p :: drainF fuel b s'

theorem dequeueOp_none_of_nil {b : Bool} {s : HState} (h : s.data = []) :
    dequeueOp b s = none := by
  unfold dequeueOp
  split
  · unfold dequeueIdx dequeuePre
    rw [h]
    split <;> rfl
  · exact dequeueBase_none_iff.mpr h

theorem drainF_eq : ∀ (fuel : Nat) (b : Bool) (s : HState),
    s.data.length ≤ fuel → drainF fuel b s = drain b s := by
  intro fuel
  induction fuel with
  | zero =>
    intro b s h
    have hnil : s.data = [] := by
      cases hd : s.data with
      | nil => rfl
      | cons x t =>
        rw [hd] at h
        simp at h
    rw [drain_of_none (dequeueOp_none_of_nil hnil)]
    rfl
  | succ n ih =>
    intro b s h
    show (match dequeueOpF b s with
      | none => []
      | some (p, s') => p :: drainF n b s') = drain b s
    rw [dequeueOpF_eq]
    match hdq : dequeueOp b s with
    | none => rw [drain_of_none hdq]
    | some (p, s') =>
      dsimp only
      rw [drain_of_some hdq, ih]
      have := dequeueOp_some_length hdq
      omega

/-- Drain with fuel equal to the current size: always enough. -/
def drainE (b : Bool) (s : HState) : List Patient :=
  drainF s.data.length b s

theorem drainE_eq (b : Bool) (s : HState) : drainE b s = drain b s :=
  drainF_eq s.data.length b s (le_refl _)

/-! ### Comparison-counter facts -/

theorem enqueue_comparisons_mono (b : Bool) (s : HState) (p : Patient) :
    s.comparisons ≤ (enqueue b s p).comparisons := by
  cases b
  · exact siftUp_comparisons_mono false
      { s with data := s.data ++ [p] } s.data.length
  · exact siftUp_comparisons_mono true
      ⟨s.comparisons, s.data ++ [p],
        dictInsert s.indices p.name s.data.length⟩ s.data.length

theorem dequeueBase_comparisons_mono {b : Bool} {s s' : HState} {p : Patient}
    (h : dequeueBase b s = some (p, s')) :
    s.comparisons ≤ s'.comparisons := by
  rcases (dequeueBase_some h).2.2 with ⟨_, hs'⟩ | ⟨_, hs'⟩
  · rw [hs']
  · rw [hs']
    unfold dequeueMid
    exact siftDown_comparisons_mono b { s with data := (s.data.dropLast).set 0 ((s.data.getLast?).getD default) } 0

theorem dequeueOp_comparisons_mono {b : Bool} {s s' : HState} {p : Patient}
    (h : dequeueOp b s = some (p, s')) :
    s.comparisons ≤ s'.comparisons := by
  unfold dequeueOp at h
  split at h
  · obtain ⟨s1, h1, h2⟩ := dequeueIdx_some_pre h
    have hc := (dequeuePre_some h1).2
    rw [← hc]
    exact dequeueBase_comparisons_mono h2
  · exact dequeueBase_comparisons_mono h

theorem removeIdx_comparisons_mono {s s' : HState} {pname : String}
    (h : removeIdx s pname = some s') :
    s.comparisons ≤ s'.comparisons := by
  unfold removeIdx at h
  split at h
  · exact absurd h (by simp)
  · rename_i r hr
    split at h
    · exact absurd h (by simp)
    · rename_i m0 hm0
      split at h
      · exact absurd h (by simp)
      · rename_i lastI hlastI
        split at h
        · simp only [Option.some_inj] at h
          rw [← h]
          refine le_trans ?_ (siftDown_comparisons_mono true _ r)
          exact siftUp_comparisons_mono true ⟨s.comparisons, (s.data.set r lastI).dropLast, dictInsert m0 lastI.name r⟩ r
        · simp only [Option.some_inj] at h
          rw [← h]

theorem enqueue_comparisons_empty {b : Bool} {s : HState} (h : s.data = [])
    (p : Patient) : (enqueue b s p).comparisons = s.comparisons := by
  unfold enqueue
  have hlen : s.data.length = 0 := by
    rw [h]
    rfl
  rw [hlen, siftUp_zero]
  cases b <;> rfl

theorem dequeueOp_comparisons_singleton {b : Bool} {s s' : HState}
    {p : Patient} (hlen : s.data.length = 1)
    (h : dequeueOp b s = some (p, s')) :
    s'.comparisons = s.comparisons := by
  unfold dequeueOp at h
  split at h
  · obtain ⟨s1, h1, h2⟩ := dequeueIdx_some_pre h
    obtain ⟨hd, hc⟩ := dequeuePre_some h1
    rcases (dequeueBase_some h2).2.2 with ⟨_, hs'⟩ | ⟨hge, _⟩
    · rw [hs']
      exact hc
    · rw [hd] at hge
      omega
  · rcases (dequeueBase_some h).2.2 with ⟨_, hs'⟩ | ⟨hge, _⟩
    · rw [hs']
    · omega

/-! ### Drain permutation without distinctness assumptions -/

theorem drain_perm (b : Bool) :
    ∀ (n : Nat) (s : HState), s.data.length ≤ n →
    (b = true → posInv s) → (drain b s).Perm s.data := by
  intro n
  induction n with
  | zero =>
    intro s hlen _
    have hnil : s.data = [] := by
      cases hd : s.data with
      | nil => rfl
      | cons x t =>
        rw [hd] at hlen
        simp at hlen
    rw [drain_of_none (dequeueOp_none_of_nil hnil), hnil]
  | succ n ih =>
    intro s hlen hpos
    match hdq : dequeueOp b s with
    | none =>
      have hnil : s.data = [] := by
        unfold dequeueOp at hdq
        split at hdq
        · rename_i hb
          exact (dequeueIdx_none_iff (hpos hb)).mp hdq
        · exact dequeueBase_none_iff.mp hdq
      rw [drain_of_none hdq, hnil]
    | some (p, s') =>
      rw [drain_of_some hdq]
      have hperm : s.data.Perm (p :: s'.data) := dequeueOp_perm hdq
      have hpos' : b = true → posInv s' := by
        intro hb
        subst hb
        unfold dequeueOp at hdq
        rw [if_pos rfl] at hdq
        exact dequeueIdx_posInv (hpos rfl) hdq
      have hlen' : s'.data.length ≤ n := by
        have := dequeueOp_some_length hdq
        omega
      exact ((ih s' hlen' hpos').cons p).trans hperm.symm

theorem posInv_names_nodup {s : HState} (h : posInv s) :
    (s.data.map Patient.name).Nodup := by
  rw [List.nodup_iff_injective_get]
  intro i j hij
  have h1 : (s.data.map Patient.name).length = s.data.length := by simp
  obtain ⟨i, hi⟩ := i
  obtain ⟨j, hj⟩ := j
  simp only [List.get_eq_getElem, List.getElem_map] at hij
  have hi' : i < s.data.length := by omega
  have hj' : j < s.data.length := by omega
  have := posInv_name_inj h hi' hj' (by
    rw [getD_eq_getElem hi', getD_eq_getElem hj']
    exact hij)
  simp [this]

/-! ### Tie-break helpers for the sift procedures -/

theorem maxChild_tie {d : List Patient} {comps index : Nat}
    (h2 : 2 * index + 2 < d.length)
    (heq : prio d (2 * index + 2) = prio d (2 * index + 1)) :
    maxChildPriorityIndex d comps index = (some (2 * index + 1), comps + 1) := by
  unfold maxChildPriorityIndex
  rw [if_neg (by omega), if_neg (by omega),
    if_neg (by rw [heq]; exact lt_irrefl _)]

theorem maxChild_snd_strict {d : List Patient} {comps index comps' : Nat}
    (h : maxChildPriorityIndex d comps index
      = (some (2 * index + 2), comps')) :
    prio d (2 * index + 1) < prio d (2 * index + 2) := by
  unfold maxChildPriorityIndex at h
  split at h
  · simp at h
  · split at h
    · injection h with h1 h2
      injection h1 with h1
      omega
    · split at h
      · rename_i hgt
        exact hgt
      · injection h with h1 h2
        injection h1 with h1
        omega

instance : IsAntisymm Patient (fun a c => c.priority < a.priority) :=
  ⟨fun _ _ h1 h2 => absurd (lt_trans h1 h2) (lt_irrefl _)⟩

/-- The specification's running example: priorities 5, 9, 1, 7 with the
distinct keys a, b, c, d. -/
def exampleData : List Patient := [⟨"a", 5⟩, ⟨"b", 9⟩, ⟨"c", 1⟩, ⟨"d", 7⟩]

/-! ### The claims -/

/-- **C1.** For every queue (plain `b = false` or indexed `b = true`) whose
elements have pairwise distinct priorities, repeatedly dequeuing until the
queue is empty returns exactly the stored elements, in strictly descending
priority order; in particular, after incrementally enqueueing priorities
5, 9, 1, 7 under keys a, b, c, d, the dequeues return b(9), d(7), a(5),
c(1).  (Valid queue states satisfy `heapInv`, and the indexed ones
`posInv`; both are established by claim C2 / C3.) -/
theorem claim_C1_dequeue_order :
    (∀ (b : Bool) (s : HState), heapInv s.data → (b = true → posInv s) →
      (s.data.map Patient.priority).Nodup →
      (drain b s).Perm s.data ∧
      (drain b s).Pairwise (fun a c => c.priority < a.priority)) ∧
    drain false (initBase (some exampleData) false)
      = [⟨"b", 9⟩, ⟨"d", 7⟩, ⟨"a", 5⟩, ⟨"c", 1⟩] := by
  constructor
  · intro b s hheap hpos hdist
    exact drain_spec b s.data.length s (le_refl _) hheap hpos hdist
  · rw [← initBaseF_eq, ← drainE_eq]
    decide

theorem claim_C1_witness :
    (drain false ⟨0, [⟨"b", 9⟩, ⟨"a", 5⟩, ⟨"c", 1⟩], []⟩).Perm
      [⟨"b", 9⟩, ⟨"a", 5⟩, ⟨"c", 1⟩] ∧
    (drain false ⟨0, [⟨"b", 9⟩, ⟨"a", 5⟩, ⟨"c", 1⟩], []⟩).Pairwise
      (fun a c => c.priority < a.priority) :=
  claim_C1_dequeue_order.1 false ⟨0, [⟨"b", 9⟩, ⟨"a", 5⟩, ⟨"c", 1⟩], []⟩
    (by decide) (fun h => nomatch h) (by decide)

/-- **C2.** Every successful public operation — construction in either
mode, enqueue, dequeue, and the indexed variant's remove — leaves the
queue satisfying the max-heap invariant `heapInv` (for every index with an
in-bounds child, the parent's priority is at least the child's). -/
theorem claim_C2_heap_invariant :
    (∀ (startData : Option (List Patient)) (fast : Bool),
      heapInv (initBase startData fast).data) ∧
    (∀ (l : List Patient) (fast : Bool) (s : HState),
      initIndexed (some l) fast = some s → heapInv s.data) ∧
    (∀ (b : Bool) (s : HState) (p : Patient),
      heapInv s.data → heapInv (enqueue b s p).data) ∧
    (∀ (b : Bool) (s s' : HState) (p : Patient), heapInv s.data →
      dequeueOp b s = some (p, s') → heapInv s'.data) ∧
    (∀ (s s' : HState) (pname : String), posInv s → heapInv s.data →
      removeIdx s pname = some s' → heapInv s'.data) := by
  refine ⟨initBase_heapInv, ?_, enqueue_heapInv, ?_, ?_⟩
  · intro l fast s h
    exact initIndexed_heapInv h
  · intro b s s' p hh hd
    exact dequeueOp_heapInv hh hd
  · intro s s' pname hpos hheap hrem
    cases hl : dictLookup s.indices pname with
    | none =>
      rw [(removeIdx_none_iff hpos pname).mpr hl] at hrem
      exact absurd hrem (by simp)
    | some r =>
      obtain ⟨s'', h1, h2, h3, h4, h5⟩ := removeIdx_spec hpos hheap hl
      rw [h1] at hrem
      injection hrem with hrem
      rw [← hrem]
      exact h3

theorem claim_C2_witness :
    heapInv (enqueue false ⟨0, [⟨"b", 9⟩, ⟨"a", 5⟩], []⟩ ⟨"c", 7⟩).data :=
  claim_C2_heap_invariant.2.2.1 false ⟨0, [⟨"b", 9⟩, ⟨"a", 5⟩], []⟩ ⟨"c", 7⟩
    (by decide)

/-- **C3.** For the indexed queue, after construction in either mode (with
pairwise-distinct keys), and after every successful enqueue (of a fresh
key), dequeue, or remove, the position map satisfies `posInv`:
`position[storage[i].key] = i` for every valid index, and the map holds
exactly one entry per stored element. -/
theorem claim_C3_position_invariant :
    (∀ (l : List Patient) (fast : Bool) (s : HState),
      (l.map Patient.name).Nodup → initIndexed (some l) fast = some s →
      posInv s) ∧
    (∀ (s : HState) (p : Patient), posInv s →
      dictLookup s.indices p.name = none → posInv (enqueue true s p)) ∧
    (∀ (s s' : HState) (p : Patient), posInv s →
      dequeueIdx s = some (p, s') → posInv s') ∧
    (∀ (s s' : HState) (pname : String), posInv s → heapInv s.data →
      removeIdx s pname = some s' → posInv s') := by
  refine ⟨?_, ?_, ?_, ?_⟩
  · intro l fast s hn h
    exact initIndexed_posInv hn fast h
  · intro s p h hf
    exact enqueue_posInv h hf
  · intro s s' p h hd
    exact dequeueIdx_posInv h hd
  · intro s s' pname hpos hheap hrem
    cases hl : dictLookup s.indices pname with
    | none =>
      rw [(removeIdx_none_iff hpos pname).mpr hl] at hrem
      exact absurd hrem (by simp)
    | some r =>
      obtain ⟨s'', h1, h2, h3, h4, h5⟩ := removeIdx_spec hpos hheap hl
      rw [h1] at hrem
      injection hrem with hrem
      rw [← hrem]
      exact h4

theorem claim_C3_witness :
    posInv (enqueue true ⟨0, [⟨"a", 5⟩], [("a", 0)]⟩ ⟨"b", 9⟩) :=
  claim_C3_position_invariant.2.1 ⟨0, [⟨"a", 5⟩], [("a", 0)]⟩ ⟨"b", 9⟩
    (by decide) (by decide)

/-- **C4.** For every indexed queue and every key present in it,
`remove(key)` removes exactly the element bearing that key: the size drops
by exactly one, both invariants still hold, the remaining data is the old
data minus that one element, and no subsequent sequence of dequeues ever
returns it; in the running example, after `remove("a")` the dequeues yield
b(9), d(7), c(1). -/
theorem claim_C4_remove :
    (∀ (s : HState) (pname : String) (r : Nat), posInv s → heapInv s.data →
      dictLookup s.indices pname = some r →
      ∃ s', removeIdx s pname = some s' ∧
        s'.data.length + 1 = s.data.length ∧
        heapInv s'.data ∧ posInv s' ∧
        ((s.data.getD r default) :: s'.data).Perm s.data ∧
        (∀ q ∈ drain true s', q.name ≠ pname)) ∧
    (initIndexed (some exampleData) false).bind
      (fun s => (removeIdx s "a").map
        (fun s' => (drain true s').map (fun p => (p.name, p.priority))))
      = some [("b", 9), ("d", 7), ("c", 1)] := by
  constructor
  · intro s pname r hpos hheap hl
    obtain ⟨s', h1, h2, h3, h4, h5⟩ := removeIdx_spec hpos hheap hl
    refine ⟨s', h1, h2, h3, h4, h5, ?_⟩
    intro q hq hqname
    have hqmem : q ∈ s'.data :=
      (drain_perm true s'.data.length s' (le_refl _)
        (fun _ => h4)).mem_iff.mp hq
    have hnames : (s.data.map Patient.name).Nodup := posInv_names_nodup hpos
    have hnr := (posInv_lookup_complete hpos hl).2
    have hpermn : (((s.data.getD r default) :: s'.data).map
        Patient.name).Perm (s.data.map Patient.name) := h5.map _
    have hnodup2 : (((s.data.getD r default) :: s'.data).map
        Patient.name).Nodup := hpermn.nodup_iff.mpr hnames
    rw [List.map_cons, List.nodup_cons] at hnodup2
    refine hnodup2.1 ?_
    rw [hnr, ← hqname]
    exact List.mem_map_of_mem Patient.name hqmem
  · simp only [← initIndexedF_eq, ← removeIdxF_eq, ← drainE_eq]
    decide

theorem claim_C4_witness :
    ∃ s', removeIdx ⟨0, [⟨"b", 9⟩, ⟨"a", 5⟩], [("b", 0), ("a", 1)]⟩ "a"
        = some s' ∧
      s'.data.length + 1
        = (⟨0, [⟨"b", 9⟩, ⟨"a", 5⟩], [("b", 0), ("a", 1)]⟩
            : HState).data.length ∧
      heapInv s'.data ∧ posInv s' ∧
      (((⟨0, [⟨"b", 9⟩, ⟨"a", 5⟩], [("b", 0), ("a", 1)]⟩
          : HState).data.getD 1 default) :: s'.data).Perm
        (⟨0, [⟨"b", 9⟩, ⟨"a", 5⟩], [("b", 0), ("a", 1)]⟩ : HState).data ∧
      (∀ q ∈ drain true s', q.name ≠ "a") :=
  claim_C4_remove.1 ⟨0, [⟨"b", 9⟩, ⟨"a", 5⟩], [("b", 0), ("a", 1)]⟩ "a" 1
    (by decide) (by decide) (by decide)

/-- **C5.** `dequeue` fails exactly when the queue has size 0 (for the
indexed variant, on states satisfying the position invariant), and the
indexed `remove(key)` fails exactly when the key is absent from the
position map.  In the model a failing call returns `none` and yields no
successor state at all, mirroring the source, where each of these failures
raises on its very first read, before any field has been assigned. -/
theorem claim_C5_failure_conditions :
    (∀ (b : Bool) (s : HState), dequeueBase b s = none ↔ s.data = []) ∧
    (∀ s : HState, posInv s → (dequeueIdx s = none ↔ s.data = [])) ∧
    (∀ (s : HState) (pname : String), posInv s →
      (removeIdx s pname = none ↔ dictLookup s.indices pname = none)) :=
  ⟨fun _ _ => dequeueBase_none_iff, fun _ h => dequeueIdx_none_iff h,
    fun _ pname h => removeIdx_none_iff h pname⟩

theorem claim_C5_witness :
    (dequeueIdx ⟨0, [], []⟩ = none ↔
      (⟨0, [], []⟩ : HState).data = []) ∧
    (removeIdx ⟨0, [⟨"a", 5⟩], [("a", 0)]⟩ "zz" = none ↔
      dictLookup [("a", 0)] "zz" = none) :=
  ⟨claim_C5_failure_conditions.2.1 ⟨0, [], []⟩ (by decide),
   claim_C5_failure_conditions.2.2 ⟨0, [⟨"a", 5⟩], [("a", 0)]⟩ "zz"
     (by decide)⟩

/-- **C6.** For every input whose priorities are pairwise distinct, the
queue built incrementally (`fast = false`) and the queue built by linear
heapify (`fast = true`) emit exactly the same dequeue sequence. -/
theorem claim_C6_construction_equivalence :
    ∀ l : List Patient, (l.map Patient.priority).Nodup →
      drain false (initBase (some l) false)
        = drain false (initBase (some l) true) := by
  intro l hdist
  have h1 : (initBase (some l) false).data.Perm l := by
    have h := heapifySlow_perm false l ⟨0, [], []⟩
    simpa using h
  have h2 : (initBase (some l) true).data.Perm l := by
    have h := heapifyFast_perm false ⟨0, [], []⟩ l
    simpa using h
  have hh1 : heapInv (initBase (some l) false).data := initBase_heapInv _ _
  have hh2 : heapInv (initBase (some l) true).data := initBase_heapInv _ _
  have hd1 : ((initBase (some l) false).data.map Patient.priority).Nodup :=
    (h1.map Patient.priority).nodup_iff.mpr hdist
  have hd2 : ((initBase (some l) true).data.map Patient.priority).Nodup :=
    (h2.map Patient.priority).nodup_iff.mpr hdist
  obtain ⟨hp1, hs1⟩ := drain_spec false _ _ (le_refl _) hh1
    (fun h => nomatch h) hd1
  obtain ⟨hp2, hs2⟩ := drain_spec false _ _ (le_refl _) hh2
    (fun h => nomatch h) hd2
  exact List.eq_of_perm_of_sorted
    ((hp1.trans h1).trans ((hp2.trans h2).symm)) hs1 hs2

theorem claim_C6_witness :
    drain false (initBase (some exampleData) false)
      = drain false (initBase (some exampleData) true) :=
  claim_C6_construction_equivalence exampleData (by decide)

/-- **C7.** Constructing the base queue with no initial elements (the
default `None`, or an explicit empty list) succeeds with an empty queue in
both modes — but the indexed variant's constructor iterates
`enumerate(start_data)` before the base constructor replaces `None` by
`[]`, so the default call raises `TypeError` (modelled as `none`); with an
explicit empty list it succeeds.  This contradicts the claim (and the
constructor's own `start_data=None` default): the code, not the claim, is
at fault on the default-argument path. -/
theorem claim_C7_construction_empty :
    initIndexed none false = none ∧ initIndexed none true = none ∧
    initBase none false = ⟨0, [], []⟩ ∧ initBase none true = ⟨0, [], []⟩ ∧
    initIndexed (some []) false = some ⟨0, [], []⟩ ∧
    initIndexed (some []) true = some ⟨0, [], []⟩ :=
  ⟨rfl, rfl, rfl, rfl, rfl, rfl⟩

/-- **C8.** Sift-down's child selection prefers the lower-indexed child on
priority ties (the second child is chosen only on strict inequality), a
swap happens only when the selected child strictly outranks the parent,
and sift-up swaps only when the parent is strictly smaller, stopping at
the root or at the first ancestor at least as large. -/
theorem claim_C8_tiebreak :
    (∀ (d : List Patient) (comps index : Nat), 2 * index + 2 < d.length →
      prio d (2 * index + 2) = prio d (2 * index + 1) →
      maxChildPriorityIndex d comps index
        = (some (2 * index + 1), comps + 1)) ∧
    (∀ (d : List Patient) (comps index comps' : Nat),
      maxChildPriorityIndex d comps index
        = (some (2 * index + 2), comps') →
      prio d (2 * index + 1) < prio d (2 * index + 2)) ∧
    (∀ (b : Bool) (s : HState) (index ci comps : Nat),
      maxChildPriorityIndex s.data s.comparisons index = (some ci, comps) →
      ¬ prio s.data index < prio s.data ci →
      siftDown b s index = { s with comparisons := comps + 1 }) ∧
    (∀ (b : Bool) (s : HState) (index : Nat), index ≠ 0 →
      ¬ prio s.data (parentIndex index) < prio s.data index →
      siftUp b s index = { s with comparisons := s.comparisons + 1 }) ∧
    (∀ (b : Bool) (s : HState), siftUp b s 0 = s) := by
  refine ⟨?_, ?_, ?_, ?_, ?_⟩
  · intro d comps index h2 heq
    exact maxChild_tie h2 heq
  · intro d comps index comps' h
    exact maxChild_snd_strict h
  · intro b s index ci comps h hge
    exact siftDown_of_some_ge h hge
  · intro b s index h0 hge
    exact siftUp_of_no_swap h0 hge
  · intro b s
    exact siftUp_zero b s

theorem claim_C8_witness :
    maxChildPriorityIndex [⟨"a", 5⟩, ⟨"b", 3⟩, ⟨"c", 3⟩] 7 0
      = (some 1, 8) :=
  claim_C8_tiebreak.1 [⟨"a", 5⟩, ⟨"b", 3⟩, ⟨"c", 3⟩] 7 0 (by decide)
    (by decide)

/-- **C9.** The comparison counter never decreases across any operation
(the model increments it exactly at the source's comparison sites, one per
priority comparison, by construction); in particular an enqueue into an
empty queue and a dequeue from a one-element queue leave it unchanged. -/
theorem claim_C9_comparisons :
    (∀ (b : Bool) (s : HState) (p : Patient),
      s.comparisons ≤ (enqueue b s p).comparisons) ∧
    (∀ (b : Bool) (s s' : HState) (p : Patient),
      dequeueOp b s = some (p, s') → s.comparisons ≤ s'.comparisons) ∧
    (∀ (s s' : HState) (pname : String),
      removeIdx s pname = some s' → s.comparisons ≤ s'.comparisons) ∧
    (∀ (b : Bool) (s : HState) (p : Patient), s.data = [] →
      (enqueue b s p).comparisons = s.comparisons) ∧
    (∀ (b : Bool) (s s' : HState) (p : Patient), s.data.length = 1 →
      dequeueOp b s = some (p, s') → s'.comparisons = s.comparisons) := by
  refine ⟨enqueue_comparisons_mono, ?_, ?_, ?_, ?_⟩
  · intro b s s' p h
    exact dequeueOp_comparisons_mono h
  · intro s s' pname h
    exact removeIdx_comparisons_mono h
  · intro b s p h
    exact enqueue_comparisons_empty h p
  · intro b s s' p hlen h
    exact dequeueOp_comparisons_singleton hlen h

theorem claim_C9_witness :
    (enqueue false ⟨5, [], []⟩ ⟨"a", 5⟩).comparisons
      = (⟨5, [], []⟩ : HState).comparisons :=
  claim_C9_comparisons.2.2.2.1 false ⟨5, [], []⟩ ⟨"a", 5⟩ rfl

/-- **C10.** Enqueueing two distinct elements that share the key "a" into
the indexed queue raises no error in the model (enqueue is total): the
second insertion silently overwrites the first key's entry, after which
the position invariant fails — the map holds one entry for two stored
elements. -/
theorem claim_C10_duplicate_key :
    (enqueue true (enqueue true ⟨0, [], []⟩ ⟨"a", 5⟩) ⟨"a", 3⟩).indices
      = [("a", 1)] ∧
    (enqueue true (enqueue true ⟨0, [], []⟩ ⟨"a", 5⟩) ⟨"a", 3⟩).data
      = [⟨"a", 5⟩, ⟨"a", 3⟩] ∧
    ¬ posInv (enqueue true (enqueue true ⟨0, [], []⟩ ⟨"a", 5⟩) ⟨"a", 3⟩) := by
  have he : enqueue true (enqueue true ⟨0, [], []⟩ ⟨"a", 5⟩) ⟨"a", 3⟩
      = enqueueF true (enqueueF true ⟨0, [], []⟩ ⟨"a", 5⟩) ⟨"a", 3⟩ := by
    rw [enqueueF_eq, enqueueF_eq]
  rw [he]
  exact ⟨by decide, by decide, by decide⟩

end PatientQueue
